import Mathlib

set_option maxHeartbeats 1000000
set_option maxRecDepth 8192

/-!
Verification of the document-storage / text-access core of the `fresh` editor.

The line iterator (`LineIterator.new`, `next`, `prev`, `current_position`) is
embedded from `src/line_iterator.rs`.  The collaborators it calls — the
Text Buffer facade, the piece tree and the buffer store — are not part of the
published sources, so they are modelled from the specification (each such
definition carries a `Modelled from the spec:` doc comment).  Bytes are
natural numbers below 256; Rust strings are represented by their lists of
Unicode scalar values.
-/

namespace Fresh

/-- Modelled from the spec: a logical line/column address (§3 Position). -/
structure Position where
  line : Nat
  column : Nat
deriving DecidableEq, Repr

/-- Modelled from the spec: buffer lifecycle states (§3 Buffer).  A buffer is
either Unloaded (length known, content not materialized) or Loaded with its
byte content and optional exact line-start metadata. -/
inductive BufferData where
  | unloaded (length : Nat)
  | loaded (data : List Nat) (line_starts : Option (List Nat))
deriving DecidableEq

/-- Modelled from the spec: content of a Loaded buffer, none while Unloaded (§4.2). -/
def BufferData.get_data : BufferData → Option (List Nat)
  | .unloaded _ => none
  | .loaded data _ => some data

/-- Modelled from the spec: one contiguous run of bytes of one buffer forming
part of the document (§3 Piece).  The source's `piece.location.buffer_id()`
is flattened into the `buffer_id` field. -/
structure Piece where
  buffer_id : Nat
  buffer_offset : Nat
  bytes : Nat
  doc_offset : Nat
deriving DecidableEq

/-- Modelled from the spec: the Text Buffer facade composing the buffer store
and the piece tree (§4.3); `pieces` is the piece tree's in-order sequence. -/
structure TextBuffer where
  buffers : List BufferData
  pieces : List Piece
deriving DecidableEq

/-- Bytes of one piece, as resolved through the buffer store. -/
def Piece.content (tb : TextBuffer) (p : Piece) : List Nat :=
  (((tb.buffers.getD p.buffer_id (.unloaded 0)).get_data).getD []).drop p.buffer_offset
    |>.take p.bytes

/-- The current document: concatenation of the pieces' bytes in tree order (§3). -/
def TextBuffer.content (tb : TextBuffer) : List Nat :=
  (tb.pieces.map (Piece.content tb)).flatten

/-- Modelled from the spec: total document length, the piece tree's aggregated
byte length (§4.3 len). -/
def TextBuffer.len (tb : TextBuffer) : Nat :=
  (tb.pieces.map Piece.bytes).sum

/-- Successor positions of newline bytes: `i + 1` for every index `i` (counted
from `base`) holding byte 0x0A. -/
def newlineStarts : List Nat → Nat → List Nat
  | [], _ => []
  | b :: rest, base =>
      if b = 10 then (base + 1) :: newlineStarts rest (base + 1)
      else newlineStarts rest (base + 1)

/-- Modelled from the spec: exact line-start metadata of a byte content —
offset 0 followed by the offset immediately after each newline (§3 Line
metadata invariant). -/
def computeLineStarts (bs : List Nat) : List Nat :=
  0 :: newlineStarts bs 0

/-- Modelled from the spec: whether exact line metadata is available for the
document, i.e. every buffer is Loaded and carries line_starts (§3, §4.3). -/
def TextBuffer.exactMeta (tb : TextBuffer) : Bool :=
  tb.buffers.all fun b =>
    match b with
    | .loaded _ (some _) => true
    | _ => false

/-- Modelled from the spec: `offset_to_position` returns the line/column of a
byte offset when exact line metadata is available and none otherwise (§4.3).
By the §3 invariant the stored metadata equals the line starts recomputed
from the document content, which is what this model uses. -/
def TextBuffer.offset_to_position (tb : TextBuffer) (offset : Nat) : Option Position :=
  if tb.exactMeta then
    let starts := computeLineStarts tb.content
    let line := starts.countP (fun s => decide (s ≤ offset)) - 1
    some { line := line, column := offset - starts.getD line 0 }
  else none

/-- Modelled from the spec: inverse mapping from a position to a byte offset,
clamped to the document end for out-of-range lines (§4.3). -/
def TextBuffer.position_to_offset (tb : TextBuffer) (pos : Position) : Nat :=
  let starts := computeLineStarts tb.content
  min (starts.getD pos.line tb.len + pos.column) tb.len

/-- Modelled from the spec: the piece tree's `line_range` — the byte range of a
logical line, the end being none for the last line (§4.1). -/
def TextBuffer.line_range (tb : TextBuffer) (line : Nat) : Option (Nat × Option Nat) :=
  let starts := computeLineStarts tb.content
  if line < starts.length then some (starts.getD line 0, starts.get? (line + 1))
  else none

/-- Modelled from the spec: `get_text_range` reads a byte range, none when the
range exceeds the document length (§4.3). -/
def TextBuffer.get_text_range (tb : TextBuffer) (start len : Nat) : Option (List Nat) :=
  if start + len ≤ tb.len then some ((tb.content.drop start).take len) else none

/-- Modelled from the spec: pieces in document order intersecting `[start, stop)` (§4.1). -/
def TextBuffer.iter_pieces_in_range (tb : TextBuffer) (start stop : Nat) : List Piece :=
  tb.pieces.filter fun p =>
    decide (p.doc_offset < stop) && decide (start < p.doc_offset + p.bytes)

end Fresh

namespace Fresh

/-- Continuation-byte test of the UTF-8 decoder. -/
def isCont (b : Nat) : Bool := decide (0x80 ≤ b) && decide (b ≤ 0xBF)

/-- Lossy UTF-8 decoding as performed by `String::from_utf8_lossy` (used at
lines 140 and 230-231 of line_iterator.rs): invalid sequences become U+FFFD
following the maximal-subpart rule; the result is the list of decoded
Unicode scalar values. -/
def utf8LossyDecode : List Nat → List Nat
  | [] => []
  | b0 :: rest =>
    if b0 < 0x80 then b0 :: utf8LossyDecode rest
    else if b0 < 0xC2 then 0xFFFD :: utf8LossyDecode rest
    else if b0 ≤ 0xDF then
      match rest with
      | [] => [0xFFFD]
      | b1 :: rest1 =>
        if isCont b1 then
          ((b0 - 0xC0) * 0x40 + (b1 - 0x80)) :: utf8LossyDecode rest1
        else 0xFFFD :: utf8LossyDecode (b1 :: rest1)
    else if b0 ≤ 0xEF then
      match rest with
      | [] => [0xFFFD]
      | b1 :: rest1 =>
        if (b0 = 0xE0 && (decide (0xA0 ≤ b1) && decide (b1 ≤ 0xBF))) ||
           (b0 = 0xED && (decide (0x80 ≤ b1) && decide (b1 ≤ 0x9F))) ||
           (b0 ≠ 0xE0 && b0 ≠ 0xED && isCont b1) then
          match rest1 with
          | [] => [0xFFFD]
          | b2 :: rest2 =>
            if isCont b2 then
              ((b0 - 0xE0) * 0x1000 + (b1 - 0x80) * 0x40 + (b2 - 0x80)) ::
                utf8LossyDecode rest2
            else 0xFFFD :: utf8LossyDecode (b2 :: rest2)
        else 0xFFFD :: utf8LossyDecode (b1 :: rest1)
    else if b0 ≤ 0xF4 then
      match rest with
      | [] => [0xFFFD]
      | b1 :: rest1 =>
        if (b0 = 0xF0 && (decide (0x90 ≤ b1) && decide (b1 ≤ 0xBF))) ||
           (b0 = 0xF4 && (decide (0x80 ≤ b1) && decide (b1 ≤ 0x8F))) ||
           (b0 ≠ 0xF0 && b0 ≠ 0xF4 && isCont b1) then
          match rest1 with
          | [] => [0xFFFD]
          | b2 :: rest2 =>
            if isCont b2 then
              match rest2 with
              | [] => [0xFFFD]
              | b3 :: rest3 =>
                if isCont b3 then
                  ((b0 - 0xF0) * 0x40000 + (b1 - 0x80) * 0x1000 +
                      (b2 - 0x80) * 0x40 + (b3 - 0x80)) :: utf8LossyDecode rest3
                else 0xFFFD :: utf8LossyDecode (b3 :: rest3)
            else 0xFFFD :: utf8LossyDecode (b2 :: rest2)
        else 0xFFFD :: utf8LossyDecode (b1 :: rest1)
    else 0xFFFD :: utf8LossyDecode rest

/-- Line iterator cursor state (line_iterator.rs lines 35-42); the borrowed
TextBuffer is passed explicitly to each operation. -/
structure LineIterator where
  current_pos : Nat
  buffer_len : Nat
  estimated_line_length : Nat
deriving DecidableEq

/-- Constructor `LineIterator::new` (line_iterator.rs lines 45-85): clamps the
offset, then positions at the line start — exactly when metadata allows,
otherwise at the estimated line start. -/
def LineIterator.new (tb : TextBuffer) (byte_pos0 estimated_line_length : Nat) :
    LineIterator :=
  let buffer_len := tb.len
  let byte_pos := min byte_pos0 buffer_len
  let line_start :=
    if byte_pos = 0 then 0
    else
      match tb.offset_to_position byte_pos with
      | some pos => tb.position_to_offset { line := pos.line, column := 0 }
      | none =>
          let estimated_line := byte_pos / estimated_line_length
          let estimated_start := estimated_line * estimated_line_length
          min estimated_start byte_pos
  { current_pos := line_start, buffer_len := buffer_len,
    estimated_line_length := estimated_line_length }

/-- Visible bytes of one piece from document position `cur` on, as sliced by
`next` (line_iterator.rs lines 107-119); an Unloaded buffer yields nothing
(the `continue` branch). -/
def pieceSlice (tb : TextBuffer) (cur : Nat) (p : Piece) : List Nat :=
  match (tb.buffers.getD p.buffer_id (.unloaded 0)).get_data with
  | none => []
  | some data =>
      let start_offset_in_doc := max p.doc_offset cur
      let offset_in_piece := start_offset_in_doc - p.doc_offset
      (data.drop (p.buffer_offset + offset_in_piece)).take (p.bytes - offset_in_piece)

/-- Inner byte loop of `next` (line_iterator.rs lines 122-130): accumulate
bytes until a newline, reporting whether one was found. -/
def scanBytes : List Nat → List Nat × Bool
  | [] => ([], false)
  | b :: rest =>
      if b = 10 then ([10], true)
      else
        let r := scanBytes rest
        (b :: r.1, r.2)

/-- Outer piece loop of `next` (line_iterator.rs lines 106-135). -/
def scanPieces (tb : TextBuffer) (cur : Nat) : List Piece → List Nat
  | [] => []
  | p :: ps =>
      let r := scanBytes (pieceSlice tb cur p)
      if r.2 then r.1 else r.1 ++ scanPieces tb cur ps

/-- `LineIterator::next` (line_iterator.rs lines 89-142).  The pair holds the
produced line (if any) and the updated iterator state. -/
def LineIterator.next (tb : TextBuffer) (it : LineIterator) :
    Option (Nat × List Nat) × LineIterator :=
  if it.buffer_len ≤ it.current_pos then (none, it)
  else
    let line_start := it.current_pos
    let pieces := tb.iter_pieces_in_range it.current_pos it.buffer_len
    let line_bytes := scanPieces tb it.current_pos pieces
    (some (line_start, utf8LossyDecode line_bytes),
      { it with current_pos := it.current_pos + line_bytes.length })

/-- Per-piece extraction of `prev`'s exact branch (line_iterator.rs lines
209-228): clip the piece to the line range and read the overlap. -/
def extractSlice (tb : TextBuffer) (start stop : Nat) (p : Piece) : List Nat :=
  match (tb.buffers.getD p.buffer_id (.unloaded 0)).get_data with
  | none => []
  | some data =>
      let piece_line_start := max start p.doc_offset
      let piece_line_end := min stop (p.doc_offset + p.bytes)
      let offset_in_piece := piece_line_start - p.doc_offset
      let len_in_piece := piece_line_end - piece_line_start
      (data.drop (p.buffer_offset + offset_in_piece)).take len_in_piece

/-- Line-content collection loop of `prev` (line_iterator.rs lines 208-228). -/
def prevExtract (tb : TextBuffer) (start stop : Nat) : List Nat :=
  ((tb.iter_pieces_in_range start stop).map (extractSlice tb start stop)).flatten

/-- `LineIterator::prev` (line_iterator.rs lines 146-233).  Note that in the
estimated regime the cursor is moved before `get_text_range` is consulted,
so a failed read still leaves the cursor at the estimated start. -/
def LineIterator.prev (tb : TextBuffer) (it : LineIterator) :
    Option (Nat × List Nat) × LineIterator :=
  if it.current_pos = 0 then (none, it)
  else
    match tb.offset_to_position it.current_pos with
    | none =>
        let estimated_current_line := it.current_pos / it.estimated_line_length
        if estimated_current_line = 0 then (none, it)
        else
          let estimated_prev_line := estimated_current_line - 1
          let estimated_prev_start := estimated_prev_line * it.estimated_line_length
          let it1 := { it with current_pos := estimated_prev_start }
          match tb.get_text_range estimated_prev_start it.estimated_line_length with
          | some bytes => (some (estimated_prev_start, utf8LossyDecode bytes), it1)
          | none => (none, it1)
    | some pos =>
        if pos.line = 0 then (none, it)
        else
          let prev_line := pos.line - 1
          match tb.line_range prev_line with
          | none => (none, it)
          | some (line_start, line_end) =>
              let line_len :=
                match line_end with
                | none => it.buffer_len - line_start
                | some e => e - line_start
              let line_bytes := prevExtract tb line_start (line_start + line_len)
              (some (line_start, utf8LossyDecode line_bytes),
                { it with current_pos := line_start })

/-- Accessor `current_position` (line_iterator.rs lines 236-238). -/
def LineIterator.current_position (it : LineIterator) : Nat :=
  it.current_pos

/-- Reference definition: the document bytes from a point up to and including
the first newline byte, or to the end when none occurs. -/
def scanLine : List Nat → List Nat
  | [] => []
  | b :: rest => if b = 10 then [10] else b :: scanLine rest

/-- Reference definition: the start of the line containing byte offset `p` —
the nearest position at or before `p` that is the document start or directly
preceded by a newline byte. -/
def lineStartAt (bs : List Nat) : Nat → Nat
  | 0 => 0
  | p + 1 => if bs.getD p 0 = 10 then p + 1 else lineStartAt bs p

/-- Contiguity of the piece sequence from a given document offset: each
piece's `doc_offset` is the accumulated length and pieces are nonempty
(the §3 partition invariant). -/
def piecesContiguousB : Nat → List Piece → Bool
  | _, [] => true
  | off, p :: ps =>
      decide (p.doc_offset = off) && decide (0 < p.bytes) &&
        piecesContiguousB (p.doc_offset + p.bytes) ps

/-- A piece referencing a Loaded buffer and staying within its bounds. -/
def pieceLoadedB (tb : TextBuffer) (p : Piece) : Bool :=
  match tb.buffers.getD p.buffer_id (.unloaded 0) with
  | .loaded data _ => decide (p.buffer_offset + p.bytes ≤ data.length)
  | .unloaded _ => false

/-- Well-formed text buffer: pieces partition `[0, len)` and reference loaded
in-bounds buffer ranges. -/
def TextBuffer.WF (tb : TextBuffer) : Prop :=
  (piecesContiguousB 0 tb.pieces && tb.pieces.all (pieceLoadedB tb)) = true

instance (tb : TextBuffer) : Decidable tb.WF := by
  unfold TextBuffer.WF; infer_instance

end Fresh

namespace Fresh

/-- Modelled from the spec: the supported encoding descriptors (§3 Encoding
Descriptor).  The BOM-presence state is folded into the tags, as in the
descriptor set itself. -/
inductive EncodingKind where
  | utf8 | utf8bom | utf16le | utf16be | ascii | latin1 | windows1252 | gb18030
deriving DecidableEq

/-- A Unicode scalar value: below 0x110000 and not a surrogate. -/
def isScalarValue (c : Nat) : Bool :=
  decide (c < 0x110000) && !(decide (0xD800 ≤ c) && decide (c ≤ 0xDFFF))

/-- UTF-8 encoding of one scalar value. -/
def utf8EncodeChar (c : Nat) : List Nat :=
  if c < 0x80 then [c]
  else if c < 0x800 then [0xC0 + c / 0x40, 0x80 + c % 0x40]
  else if c < 0x10000 then
    [0xE0 + c / 0x1000, 0x80 + (c / 0x40) % 0x40, 0x80 + c % 0x40]
  else
    [0xF0 + c / 0x40000, 0x80 + (c / 0x1000) % 0x40, 0x80 + (c / 0x40) % 0x40,
      0x80 + c % 0x40]

/-- UTF-8 encoding of a text. -/
def utf8Encode (cs : List Nat) : List Nat :=
  (cs.map utf8EncodeChar).flatten

/-- UTF-16 code units of one scalar value (surrogate pair above 0xFFFF). -/
def utf16EncodeUnits (c : Nat) : List Nat :=
  if c < 0x10000 then [c]
  else [0xD800 + (c - 0x10000) / 0x400, 0xDC00 + (c - 0x10000) % 0x400]

/-- UTF-16 code units of a text. -/
def utf16Units (cs : List Nat) : List Nat :=
  (cs.map utf16EncodeUnits).flatten

/-- Little-endian serialization of 16-bit code units. -/
def unitsToBytesLE (us : List Nat) : List Nat :=
  (us.map fun u => [u % 256, u / 256]).flatten

/-- Big-endian serialization of 16-bit code units. -/
def unitsToBytesBE (us : List Nat) : List Nat :=
  (us.map fun u => [u / 256, u % 256]).flatten

/-- Little-endian pairing of bytes into 16-bit code units; a dangling odd
byte is dropped here and accounted for by the decoder. -/
def bytesToUnitsLE : List Nat → List Nat
  | b0 :: b1 :: rest => (b0 + b1 * 256) :: bytesToUnitsLE rest
  | _ => []

/-- Big-endian pairing of bytes into 16-bit code units. -/
def bytesToUnitsBE : List Nat → List Nat
  | b0 :: b1 :: rest => (b0 * 256 + b1) :: bytesToUnitsBE rest
  | _ => []

/-- Combination of UTF-16 code units into scalar values; lone surrogates
become U+FFFD. -/
def utf16Combine : List Nat → List Nat
  | [] => []
  | u :: us =>
    if u < 0xD800 || decide (0xE000 ≤ u) then u :: utf16Combine us
    else if u < 0xDC00 then
      match us with
      | [] => [0xFFFD]
      | v :: vs =>
        if 0xDC00 ≤ v && v < 0xE000 then
          (0x10000 + (u - 0xD800) * 0x400 + (v - 0xDC00)) :: utf16Combine vs
        else 0xFFFD :: utf16Combine (v :: vs)
    else 0xFFFD :: utf16Combine us

/-- WHATWG windows-1252 mapping of the bytes 0x80-0x9F. -/
def w1252Table : List Nat :=
  [0x20AC, 0x81, 0x201A, 0x192, 0x201E, 0x2026, 0x2020, 0x2021,
   0x2C6, 0x2030, 0x160, 0x2039, 0x152, 0x8D, 0x17D, 0x8F,
   0x90, 0x2018, 0x2019, 0x201C, 0x201D, 0x2022, 0x2013, 0x2014,
   0x2DC, 0x2122, 0x161, 0x203A, 0x153, 0x9D, 0x17E, 0x178]

/-- Windows-1252 decoding of one byte. -/
def w1252DecodeByte (b : Nat) : Nat :=
  if 0x80 ≤ b ∧ b ≤ 0x9F then w1252Table.getD (b - 0x80) 0xFFFD else b

/-- Windows-1252 encoding of one scalar value; unrepresentable characters
become the replacement byte 0x3F. -/
def w1252EncodeChar (c : Nat) : Nat :=
  match w1252Table.indexOf? c with
  | some i => 0x80 + i
  | none => if c < 0x80 ∨ (0xA0 ≤ c ∧ c ≤ 0xFF) then c else 0x3F

/-- GB18030 subset mapping used by the repository's own encoding tests
(TestEncoding::Gb18030 in tests/e2e/encoding.rs): the four CJK characters of
the test corpus plus ASCII; everything else becomes the replacement byte. -/
def gbEncodeChar (c : Nat) : List Nat :=
  if c = 0x4F60 then [0xC4, 0xE3]
  else if c = 0x597D then [0xBA, 0xC3]
  else if c = 0x4E16 then [0xCA, 0xC0]
  else if c = 0x754C then [0xBD, 0xE7]
  else if c < 0x80 then [c]
  else [0x3F]

/-- Whether the GB18030 subset mapping can represent a scalar losslessly. -/
def gbEncodable (c : Nat) : Bool :=
  decide (c < 0x80) || decide (c = 0x4F60) || decide (c = 0x597D) ||
    decide (c = 0x4E16) || decide (c = 0x754C)

/-- GB18030 subset decoding, inverse to `gbEncodeChar` on its image. -/
def gbDecode : List Nat → List Nat
  | [] => []
  | b :: rest =>
    if b < 0x80 then b :: gbDecode rest
    else
      match rest with
      | [] => [0xFFFD]
      | t :: rest1 =>
        if b = 0xC4 ∧ t = 0xE3 then 0x4F60 :: gbDecode rest1
        else if b = 0xBA ∧ t = 0xC3 then 0x597D :: gbDecode rest1
        else if b = 0xCA ∧ t = 0xC0 then 0x4E16 :: gbDecode rest1
        else if b = 0xBD ∧ t = 0xE7 then 0x754C :: gbDecode rest1
        else 0xFFFD :: gbDecode (t :: rest1)

/-- Modelled from the spec: total decoding of raw bytes into the internal
text for a descriptor (§4.4): BOM bytes of BOM-carrying descriptors are
consumed, undecodable sequences become U+FFFD; an odd UTF-16 tail byte also
becomes one U+FFFD. -/
def decodeBytes : EncodingKind → List Nat → List Nat
  | .utf8, bs => utf8LossyDecode bs
  | .utf8bom, bs => utf8LossyDecode (bs.drop 3)
  | .utf16le, bs =>
      utf16Combine (bytesToUnitsLE (bs.drop 2)) ++
        (if (bs.drop 2).length % 2 = 1 then [0xFFFD] else [])
  | .utf16be, bs =>
      utf16Combine (bytesToUnitsBE (bs.drop 2)) ++
        (if (bs.drop 2).length % 2 = 1 then [0xFFFD] else [])
  | .ascii, bs => bs.map fun b => if b < 0x80 then b else 0xFFFD
  | .latin1, bs => bs.map fun b => b
  | .windows1252, bs => bs.map w1252DecodeByte
  | .gb18030, bs => gbDecode bs

/-- Modelled from the spec: exact re-encoding of the internal text for a
descriptor (§4.4), re-emitting BOMs verbatim; characters outside the target
repertoire become a defined replacement byte. -/
def encodeBytes : EncodingKind → List Nat → List Nat
  | .utf8, cs => utf8Encode cs
  | .utf8bom, cs => [0xEF, 0xBB, 0xBF] ++ utf8Encode cs
  | .utf16le, cs => [0xFF, 0xFE] ++ unitsToBytesLE (utf16Units cs)
  | .utf16be, cs => [0xFE, 0xFF] ++ unitsToBytesBE (utf16Units cs)
  | .ascii, cs => cs.map fun c => if c < 0x80 then c else 0x3F
  | .latin1, cs => cs.map fun c => if c ≤ 0xFF then c else 0x3F
  | .windows1252, cs => cs.map w1252EncodeChar
  | .gb18030, cs => (cs.map gbEncodeChar).flatten

/-- Nat content valid for a descriptor: it is the exact encoding of some
text whose characters the descriptor represents losslessly, including the
required BOM for BOM-carrying descriptors. -/
def ValidBytesFor : EncodingKind → List Nat → Prop
  | .utf8, bs => ∃ cs, (∀ c ∈ cs, isScalarValue c = true) ∧ utf8Encode cs = bs
  | .utf8bom, bs =>
      ∃ cs, (∀ c ∈ cs, isScalarValue c = true) ∧
        [0xEF, 0xBB, 0xBF] ++ utf8Encode cs = bs
  | .utf16le, bs =>
      ∃ cs, (∀ c ∈ cs, isScalarValue c = true) ∧
        [0xFF, 0xFE] ++ unitsToBytesLE (utf16Units cs) = bs
  | .utf16be, bs =>
      ∃ cs, (∀ c ∈ cs, isScalarValue c = true) ∧
        [0xFE, 0xFF] ++ unitsToBytesBE (utf16Units cs) = bs
  | .ascii, bs => ∀ b ∈ bs, b < 0x80
  | .latin1, bs => ∀ b ∈ bs, b ≤ 0xFF
  | .windows1252, bs => ∀ b ∈ bs, b ≤ 0xFF
  | .gb18030, bs =>
      ∃ cs : List Nat, (∀ c ∈ cs, gbEncodable c = true) ∧
        (cs.map gbEncodeChar).flatten = bs

/-- Fuel-indexed forward collection: repeatedly call `next`, recording the
produced lines until it yields none. -/
def iterForward (tb : TextBuffer) : Nat → LineIterator → List (Nat × List Nat)
  | 0, _ => []
  | fuel + 1, it =>
      match LineIterator.next tb it with
      | (none, _) => []
      | (some pair, it1) => pair :: iterForward tb fuel it1

/-- Fuel-indexed backward collection: repeatedly call `prev`, recording the
produced lines until it yields none. -/
def iterBackward (tb : TextBuffer) : Nat → LineIterator → List (Nat × List Nat)
  | 0, _ => []
  | fuel + 1, it =>
      match LineIterator.prev tb it with
      | (none, _) => []
      | (some pair, it1) => pair :: iterBackward tb fuel it1

/-- Reference forward line decomposition driven by the remaining newline
positions: each pair carries a line start and the decoded line, the last
line running to the document end when no newline remains. -/
def linePairs (bs : List Nat) : Nat → List Nat → List (Nat × List Nat)
  | s, [] => if bs.length ≤ s then [] else [(s, utf8LossyDecode (bs.drop s))]
  | s, t :: ns => (s, utf8LossyDecode ((bs.drop s).take (t - s))) :: linePairs bs t ns

/-- Newline-delimited pairs in start-end slice form, one per newline. -/
def pairsAux (bs : List Nat) : Nat → List Nat → List (Nat × List Nat)
  | _, [] => []
  | s, t :: ns => (s, utf8LossyDecode ((bs.take t).drop s)) :: pairsAux bs t ns

/-- The pairs produced by `k` backward steps from the line-start of index `k`. -/
def backPairs (bs : List Nat) (starts : List Nat) : Nat → List (Nat × List Nat)
  | 0 => []
  | k + 1 =>
      (starts.getD k 0,
        utf8LossyDecode ((bs.take (starts.getD (k + 1) 0)).drop (starts.getD k 0)))
        :: backPairs bs starts k

/-- Concrete scenario buffer: content `"Hello\nWorld!!\n"` with exact line
metadata, one original piece (spec §8, scenario C). -/
def helloBuf : TextBuffer :=
  { buffers := [.loaded [72, 101, 108, 108, 111, 10, 87, 111, 114, 108, 100, 33, 33, 10]
      (some [0, 6, 14])],
    pieces := [{ buffer_id := 0, buffer_offset := 0, bytes := 14, doc_offset := 0 }] }

/-- Concrete buffer of more than 1 MiB whose loaded content carries no line
metadata (spec §8, scenario D). -/
def bigBufD : TextBuffer :=
  { buffers := [.loaded (List.replicate 1048640 97) none],
    pieces := [{ buffer_id := 0, buffer_offset := 0, bytes := 1048640, doc_offset := 0 }] }

/-- Concrete large-document buffer in the estimated regime: a loaded 200-byte
head (metadata-free) followed by an Unloaded tail piece of 1 MiB. -/
def estBuf : TextBuffer :=
  { buffers := [.loaded (List.replicate 200 97) none, .unloaded 1048576],
    pieces := [{ buffer_id := 0, buffer_offset := 0, bytes := 200, doc_offset := 0 },
      { buffer_id := 1, buffer_offset := 0, bytes := 1048576, doc_offset := 200 }] }

/-- Concrete large-document buffer whose loaded head is `"hi\n"`, followed by
an Unloaded 1 MiB tail piece; no line metadata. -/
def hiBuf : TextBuffer :=
  { buffers := [.loaded [104, 105, 10] none, .unloaded 1048576],
    pieces := [{ buffer_id := 0, buffer_offset := 0, bytes := 3, doc_offset := 0 },
      { buffer_id := 1, buffer_offset := 0, bytes := 1048576, doc_offset := 3 }] }

/-- Concrete buffer holding invalid UTF-8: the byte 0xFF followed by "A\n". -/
def badUtf8Buf : TextBuffer :=
  { buffers := [.loaded [255, 65, 10] (some [0, 3])],
    pieces := [{ buffer_id := 0, buffer_offset := 0, bytes := 3, doc_offset := 0 }] }

/-- Concrete single-byte document `"b"` with exact line metadata and no
trailing newline. -/
def oneByteBuf : TextBuffer :=
  { buffers := [.loaded [98] (some [0])],
    pieces := [{ buffer_id := 0, buffer_offset := 0, bytes := 1, doc_offset := 0 }] }

end Fresh

namespace Fresh

/-! Basic facts about well-formed text buffers. -/

theorem wf_contig {tb : TextBuffer} (h : tb.WF) : piecesContiguousB 0 tb.pieces = true := by
  unfold TextBuffer.WF at h
  exact (Bool.and_eq_true _ _ |>.mp h).1

theorem wf_loaded {tb : TextBuffer} (h : tb.WF) {p : Piece} (hp : p ∈ tb.pieces) :
    pieceLoadedB tb p = true := by
  unfold TextBuffer.WF at h
  have h2 := (Bool.and_eq_true _ _ |>.mp h).2
  exact (List.all_eq_true.mp h2) p hp

theorem pieceLoaded_data {tb : TextBuffer} {p : Piece} (h : pieceLoadedB tb p = true) :
    ∃ data ls, tb.buffers.getD p.buffer_id (.unloaded 0) = .loaded data ls ∧
      p.buffer_offset + p.bytes ≤ data.length := by
  unfold pieceLoadedB at h
  cases hb : tb.buffers.getD p.buffer_id (.unloaded 0) with
  | unloaded n => rw [hb] at h; simp at h
  | loaded data ls =>
      rw [hb] at h
      exact ⟨data, ls, rfl, by simpa using h⟩

theorem content_length_of_loaded {tb : TextBuffer} {p : Piece}
    (h : pieceLoadedB tb p = true) : (Piece.content tb p).length = p.bytes := by
  obtain ⟨data, ls, heq, hle⟩ := pieceLoaded_data h
  unfold Piece.content
  rw [heq]
  simp [BufferData.get_data]
  omega

theorem piecesContiguousB_cons {off : Nat} {p : Piece} {ps : List Piece} :
    piecesContiguousB off (p :: ps) = true ↔
      p.doc_offset = off ∧ 0 < p.bytes ∧
        piecesContiguousB (p.doc_offset + p.bytes) ps = true := by
  simp [piecesContiguousB, Bool.and_eq_true, decide_eq_true_eq, and_assoc]

theorem contig_bounds : ∀ {ps : List Piece} {off : Nat},
    piecesContiguousB off ps = true →
    ∀ q ∈ ps, off ≤ q.doc_offset ∧
      q.doc_offset + q.bytes ≤ off + (ps.map Piece.bytes).sum := by
  intro ps
  induction ps with
  | nil => intro off _ q hq; simp at hq
  | cons p tl ih =>
      intro off hc q hq
      obtain ⟨hdoc, hpos, htl⟩ := piecesContiguousB_cons.mp hc
      rcases List.mem_cons.mp hq with hq | hq
      · subst hq; simp; omega
      · have := ih htl q hq
        simp only [List.map_cons, List.sum_cons]
        omega

theorem content_length {tb : TextBuffer} (hwf : tb.WF) :
    tb.content.length = tb.len := by
  unfold TextBuffer.content TextBuffer.len
  rw [List.length_flatten, List.map_map]
  congr 1
  exact List.map_congr_left fun p hp =>
    content_length_of_loaded (wf_loaded hwf hp)

/-! The newline scan of `next` versus the reference `scanLine`. -/

theorem scanBytes_eq (l : List Nat) :
    scanBytes l = (scanLine l, l.any fun b => decide (b = 10)) := by
  induction l with
  | nil => simp [scanBytes, scanLine]
  | cons b rest ih =>
      by_cases hb : b = 10 <;> simp [scanBytes, scanLine, hb, ih]

theorem scanLine_append (a b : List Nat) :
    scanLine (a ++ b) =
      if a.any (fun x => decide (x = 10)) then scanLine a
      else scanLine a ++ scanLine b := by
  induction a with
  | nil => simp [scanLine]
  | cons x rest ih =>
      by_cases hx : x = 10
      · simp [scanLine, hx]
      · simp only [List.cons_append, scanLine, if_neg hx, List.any_cons,
          List.append_eq]
        rw [ih]
        by_cases hr : rest.any (fun y => decide (y = 10)) <;> simp [hr, hx]

theorem scanPieces_eq_scanLine (tb : TextBuffer) (cur : Nat) (ps : List Piece) :
    scanPieces tb cur ps = scanLine ((ps.map (pieceSlice tb cur)).flatten) := by
  induction ps with
  | nil => simp [scanPieces, scanLine]
  | cons p tl ih =>
      simp only [scanPieces, List.map_cons, List.flatten_cons, scanBytes_eq,
        scanLine_append, ih]

/-! The piece-range extraction equals a contiguous slice of the document. -/

theorem extractSlice_spec {tb : TextBuffer} {p : Piece} {a b : Nat}
    (hload : pieceLoadedB tb p = true) :
    extractSlice tb a b p =
      ((Piece.content tb p).take (b - p.doc_offset)).drop (a - p.doc_offset) := by
  obtain ⟨data, ls, heq, hle⟩ := pieceLoaded_data hload
  unfold extractSlice Piece.content
  rw [heq]
  simp only [BufferData.get_data, Option.getD_some]
  rw [List.take_take, List.drop_take, List.drop_drop]
  have e1 : p.buffer_offset + (max a p.doc_offset - p.doc_offset)
      = p.buffer_offset + (a - p.doc_offset) := by omega
  have e2 : min b (p.doc_offset + p.bytes) - max a p.doc_offset
      = min (b - p.doc_offset) p.bytes - (a - p.doc_offset) := by omega
  rw [e1, e2]

theorem take_drop_shift {α : Type} (R : List α) (doc m a b : Nat) :
    (R.take (b - (doc + m))).drop (a - (doc + m)) =
      (R.take (b - doc - m)).drop (a - doc - min (b - doc) m) := by
  by_cases hbm : m ≤ b - doc
  · have ex : b - (doc + m) = b - doc - m := by omega
    have ey : a - (doc + m) = a - doc - min (b - doc) m := by omega
    rw [ex, ey]
  · have h1 : b - (doc + m) = 0 := by omega
    have h2 : b - doc - m = 0 := by omega
    simp [h1, h2]

theorem extract_flatten (tb : TextBuffer) : ∀ (ps : List Piece) (off a b : Nat),
    piecesContiguousB off ps = true →
    (∀ p ∈ ps, pieceLoadedB tb p = true) →
    ((ps.filter fun p =>
        decide (p.doc_offset < b) && decide (a < p.doc_offset + p.bytes)).map
      (extractSlice tb a b)).flatten =
      (((ps.map (Piece.content tb)).flatten.take (b - off)).drop (a - off)) := by
  intro ps
  induction ps with
  | nil => intro off a b _ _; simp
  | cons p tl ih =>
      intro off a b hc hl
      obtain ⟨hdoc, hpos, htl⟩ := piecesContiguousB_cons.mp hc
      subst hdoc
      have hpl : pieceLoadedB tb p = true := hl p (List.mem_cons_self _ _)
      have hclen : (Piece.content tb p).length = p.bytes := content_length_of_loaded hpl
      have ihv := ih (p.doc_offset + p.bytes) a b htl
        fun q hq => hl q (List.mem_cons_of_mem _ hq)
      simp only [List.map_cons, List.flatten_cons, List.take_append_eq_append_take,
        List.drop_append_eq_append_drop, List.filter_cons, List.length_take, hclen]
      by_cases hcond :
          (decide (p.doc_offset < b) && decide (a < p.doc_offset + p.bytes)) = true
      · rw [if_pos hcond]
        simp only [Bool.and_eq_true, decide_eq_true_eq] at hcond
        simp only [List.map_cons, List.flatten_cons]
        congr 1
        · exact extractSlice_spec hpl
        · rw [ihv, take_drop_shift]
      · rw [if_neg hcond]
        simp only [Bool.and_eq_true, decide_eq_true_eq, not_and, not_lt] at hcond
        rw [ihv, take_drop_shift]
        by_cases hb : b ≤ p.doc_offset
        · have h1 : b - p.doc_offset = 0 := by omega
          simp [h1]
        · push_neg at hb
          have ha : p.doc_offset + p.bytes ≤ a := hcond hb
          have hA : ((Piece.content tb p).take (b - p.doc_offset)).drop (a - p.doc_offset)
              = [] := by
            apply List.drop_eq_nil_of_le
            rw [List.length_take, hclen]
            omega
          rw [hA, List.nil_append]

theorem range_slices {tb : TextBuffer} (hwf : tb.WF) (a b : Nat) :
    ((tb.iter_pieces_in_range a b).map (extractSlice tb a b)).flatten =
      (tb.content.take b).drop a := by
  have h := extract_flatten tb tb.pieces 0 a b (wf_contig hwf)
    (fun p hp => wf_loaded hwf hp)
  simpa [TextBuffer.iter_pieces_in_range, TextBuffer.content] using h

theorem prevExtract_spec {tb : TextBuffer} (hwf : tb.WF) (a b : Nat) :
    prevExtract tb a b = (tb.content.take b).drop a := by
  unfold prevExtract
  exact range_slices hwf a b

theorem pieceSlice_eq_extract {tb : TextBuffer} {p : Piece} {cur L : Nat}
    (hload : pieceLoadedB tb p = true) (hub : p.doc_offset + p.bytes ≤ L) :
    pieceSlice tb cur p = extractSlice tb cur L p := by
  obtain ⟨data, ls, heq, hle⟩ := pieceLoaded_data hload
  unfold pieceSlice extractSlice
  rw [heq]
  simp only [BufferData.get_data]
  have e2 : p.bytes - (max p.doc_offset cur - p.doc_offset)
      = min L (p.doc_offset + p.bytes) - max cur p.doc_offset := by omega
  have e1 : p.buffer_offset + (max p.doc_offset cur - p.doc_offset)
      = p.buffer_offset + (max cur p.doc_offset - p.doc_offset) := by omega
  rw [e2, e1]

theorem next_some {tb : TextBuffer} {it : LineIterator} (hwf : tb.WF)
    (hlen : it.buffer_len = tb.len) (hcur : it.current_pos < tb.len) :
    LineIterator.next tb it =
      (some (it.current_pos,
          utf8LossyDecode (scanLine (tb.content.drop it.current_pos))),
        { it with current_pos :=
            it.current_pos + (scanLine (tb.content.drop it.current_pos)).length }) := by
  have hmap : (tb.iter_pieces_in_range it.current_pos it.buffer_len).map
      (pieceSlice tb it.current_pos) =
      (tb.iter_pieces_in_range it.current_pos it.buffer_len).map
      (extractSlice tb it.current_pos it.buffer_len) := by
    apply List.map_congr_left
    intro p hp
    have hmem : p ∈ tb.pieces := List.mem_of_mem_filter hp
    have hub := (contig_bounds (wf_contig hwf) p hmem).2
    refine pieceSlice_eq_extract (wf_loaded hwf hmem) ?_
    rw [hlen]
    unfold TextBuffer.len
    omega
  have hb : ((tb.iter_pieces_in_range it.current_pos it.buffer_len).map
      (pieceSlice tb it.current_pos)).flatten = tb.content.drop it.current_pos := by
    rw [hmap, range_slices hwf, hlen,
      List.take_of_length_le (by rw [content_length hwf])]
  unfold LineIterator.next
  rw [if_neg (by omega)]
  simp only [scanPieces_eq_scanLine, hb]

theorem next_none {tb : TextBuffer} {it : LineIterator}
    (h : it.buffer_len ≤ it.current_pos) :
    LineIterator.next tb it = (none, it) := by
  unfold LineIterator.next
  rw [if_pos h]

/-! Order and membership facts about the computed line starts. -/

theorem newlineStarts_mem_bounds : ∀ (bs : List Nat) (base x : Nat),
    x ∈ newlineStarts bs base → base < x ∧ x ≤ base + bs.length := by
  intro bs
  induction bs with
  | nil => intro base x hx; simp [newlineStarts] at hx
  | cons b rest ih =>
      intro base x hx
      simp only [newlineStarts] at hx
      by_cases hb : b = 10
      · rw [if_pos hb] at hx
        simp only [List.length_cons]
        rcases List.mem_cons.mp hx with h | h
        · omega
        · have := ih (base + 1) x h
          omega
      · rw [if_neg hb] at hx
        have := ih (base + 1) x hx
        simp only [List.length_cons]
        omega

theorem newlineStarts_mem : ∀ (bs : List Nat) (base x : Nat),
    x ∈ newlineStarts bs base ↔
      (base < x ∧ x ≤ base + bs.length ∧ bs.getD (x - base - 1) 0 = 10) := by
  intro bs
  induction bs with
  | nil =>
      intro base x
      simp only [newlineStarts, List.not_mem_nil, List.length_nil, false_iff]
      omega
  | cons b rest ih =>
      intro base x
      constructor
      · intro hx
        simp only [newlineStarts] at hx
        by_cases hb : b = 10
        · rw [if_pos hb] at hx
          rcases List.mem_cons.mp hx with h | h
          · subst h
            refine ⟨by omega, by simp, ?_⟩
            have : base + 1 - base - 1 = 0 := by omega
            rw [this, List.getD_cons_zero, hb]
          · obtain ⟨h1, h2, h3⟩ := (ih (base + 1) x).mp h
            refine ⟨by omega, by simp only [List.length_cons]; omega, ?_⟩
            have : x - base - 1 = (x - (base + 1) - 1) + 1 := by omega
            rw [this, List.getD_cons_succ]
            exact h3
        · rw [if_neg hb] at hx
          obtain ⟨h1, h2, h3⟩ := (ih (base + 1) x).mp hx
          refine ⟨by omega, by simp only [List.length_cons]; omega, ?_⟩
          have : x - base - 1 = (x - (base + 1) - 1) + 1 := by omega
          rw [this, List.getD_cons_succ]
          exact h3
      · intro ⟨h1, h2, h3⟩
        simp only [newlineStarts]
        by_cases hx1 : x = base + 1
        · subst hx1
          have : base + 1 - base - 1 = 0 := by omega
          rw [this, List.getD_cons_zero] at h3
          rw [if_pos h3]
          exact List.mem_cons_self _ _
        · have h1' : base + 1 < x := by omega
          have hrest : x ∈ newlineStarts rest (base + 1) := by
            refine (ih (base + 1) x).mpr ⟨h1', ?_, ?_⟩
            · simp only [List.length_cons] at h2; omega
            · have : x - base - 1 = (x - (base + 1) - 1) + 1 := by omega
              rw [this, List.getD_cons_succ] at h3
              exact h3
          by_cases hb : b = 10
          · rw [if_pos hb]
            exact List.mem_cons_of_mem _ hrest
          · rw [if_neg hb]
            exact hrest

theorem newlineStarts_pairwise : ∀ (bs : List Nat) (base : Nat),
    (newlineStarts bs base).Pairwise (· < ·) := by
  intro bs
  induction bs with
  | nil => intro base; simp [newlineStarts]
  | cons b rest ih =>
      intro base
      simp only [newlineStarts]
      by_cases hb : b = 10
      · rw [if_pos hb]
        refine List.Pairwise.cons ?_ (ih (base + 1))
        intro y hy
        exact (newlineStarts_mem_bounds rest (base + 1) y hy).1
      · rw [if_neg hb]
        exact ih (base + 1)

theorem computeLineStarts_pairwise (bs : List Nat) :
    (computeLineStarts bs).Pairwise (· < ·) := by
  unfold computeLineStarts
  refine List.Pairwise.cons ?_ (newlineStarts_pairwise bs 0)
  intro y hy
  have := (newlineStarts_mem_bounds bs 0 y hy).1
  omega

theorem computeLineStarts_le (bs : List Nat) :
    ∀ x ∈ computeLineStarts bs, x ≤ bs.length := by
  intro x hx
  rcases List.mem_cons.mp hx with h | h
  · omega
  · have := (newlineStarts_mem_bounds bs 0 x h).2
    omega

theorem zero_mem_computeLineStarts (bs : List Nat) : 0 ∈ computeLineStarts bs :=
  List.mem_cons_self _ _

theorem getD_mem_of_lt {l : List Nat} {k : Nat} (hk : k < l.length) :
    l.getD k 0 ∈ l := by
  rw [List.getD_eq_getElem?_getD, List.getElem?_eq_getElem hk, Option.getD_some]
  exact List.getElem_mem hk

theorem sorted_countP_getD : ∀ (l : List Nat), l.Pairwise (· < ·) →
    ∀ (p d : Nat), (∃ a ∈ l, a ≤ p) →
      l.getD (l.countP (fun s => decide (s ≤ p)) - 1) d ∈ l ∧
      l.getD (l.countP (fun s => decide (s ≤ p)) - 1) d ≤ p ∧
      ∀ a ∈ l, a ≤ p → a ≤ l.getD (l.countP (fun s => decide (s ≤ p)) - 1) d := by
  intro l
  induction l with
  | nil => intro _ p d hex; simp at hex
  | cons a tl ih =>
      intro hpw p d hex
      have ha : ∀ y ∈ tl, a < y := fun y hy => List.rel_of_pairwise_cons hpw hy
      have htl : tl.Pairwise (· < ·) := hpw.of_cons
      by_cases hap : a ≤ p
      · rw [List.countP_cons, if_pos (by simpa using hap)]
        by_cases hextl : ∃ y ∈ tl, y ≤ p
        · obtain ⟨m1, m2, m3⟩ := ih htl p d hextl
          have hpos : 0 < tl.countP (fun s => decide (s ≤ p)) := by
            obtain ⟨y, hy, hyp⟩ := hextl
            exact List.countP_pos_iff.mpr ⟨y, hy, by simpa using hyp⟩
          have hidx : tl.countP (fun s => decide (s ≤ p)) + 1 - 1
              = (tl.countP (fun s => decide (s ≤ p)) - 1) + 1 := by omega
          rw [hidx, List.getD_cons_succ]
          refine ⟨List.mem_cons_of_mem _ m1, m2, ?_⟩
          intro y hy hyp
          rcases List.mem_cons.mp hy with h | h
          · subst h
            exact le_of_lt (ha _ m1)
          · exact m3 y h hyp
        · have hz : tl.countP (fun s => decide (s ≤ p)) = 0 := by
            rw [List.countP_eq_zero]
            intro y hy
            simp only [decide_eq_true_eq]
            intro hyp
            exact hextl ⟨y, hy, hyp⟩
          rw [hz, show (0 : Nat) + 1 - 1 = 0 from rfl, List.getD_cons_zero]
          refine ⟨List.mem_cons_self _ _, hap, ?_⟩
          intro y hy hyp
          rcases List.mem_cons.mp hy with h | h
          · omega
          · exact absurd ⟨y, h, hyp⟩ hextl
      · exfalso
        obtain ⟨y, hy, hyp⟩ := hex
        rcases List.mem_cons.mp hy with h | h
        · subst h; omega
        · have := ha y h; omega

theorem sorted_countP_at : ∀ (l : List Nat), l.Pairwise (· < ·) →
    ∀ k, k < l.length →
      l.countP (fun s => decide (s ≤ l.getD k 0)) = k + 1 := by
  intro l
  induction l with
  | nil => intro _ k hk; simp at hk
  | cons a tl ih =>
      intro hpw k hk
      have ha : ∀ y ∈ tl, a < y := fun y hy => List.rel_of_pairwise_cons hpw hy
      have htl : tl.Pairwise (· < ·) := hpw.of_cons
      cases k with
      | zero =>
          rw [List.getD_cons_zero, List.countP_cons, if_pos (by simp)]
          have hz : tl.countP (fun s => decide (s ≤ a)) = 0 := by
            rw [List.countP_eq_zero]
            intro y hy
            simp only [decide_eq_true_eq]
            have := ha y hy
            omega
          omega
      | succ k =>
          rw [List.getD_cons_succ, List.countP_cons]
          have hk' : k < tl.length := by simpa using hk
          have hmem : tl.getD k 0 ∈ tl := getD_mem_of_lt hk'
          have hle : a ≤ tl.getD k 0 := le_of_lt (ha _ hmem)
          rw [if_pos (by simpa using hle)]
          rw [ih htl k hk']

theorem get?_eq_some_getD {l : List Nat} {k : Nat} (hk : k < l.length) :
    l.get? k = some (l.getD k 0) := by
  rw [List.get?_eq_getElem?, List.getElem?_eq_getElem hk,
    List.getD_eq_getElem?_getD, List.getElem?_eq_getElem hk]
  rfl

theorem lineStartAt_is_start (bs : List Nat) : ∀ p, p ≤ bs.length →
    lineStartAt bs p ∈ computeLineStarts bs ∧ lineStartAt bs p ≤ p ∧
      ∀ x ∈ computeLineStarts bs, x ≤ p → x ≤ lineStartAt bs p := by
  intro p
  induction p with
  | zero =>
      intro _
      refine ⟨by simp [lineStartAt, computeLineStarts], by simp [lineStartAt], ?_⟩
      intro x _ hxle
      simp only [lineStartAt]
      omega
  | succ p ih =>
      intro hp
      have hp' : p ≤ bs.length := by omega
      have hunf : lineStartAt bs (p + 1)
          = if bs.getD p 0 = 10 then p + 1 else lineStartAt bs p := rfl
      by_cases hb : bs.getD p 0 = 10
      · have heq : lineStartAt bs (p + 1) = p + 1 := by rw [hunf, if_pos hb]
        rw [heq]
        refine ⟨?_, le_refl _, fun x _ hx => hx⟩
        apply List.mem_cons_of_mem
        refine (newlineStarts_mem bs 0 (p + 1)).mpr ⟨by omega, by omega, ?_⟩
        simpa using hb
      · have heq : lineStartAt bs (p + 1) = lineStartAt bs p := by
          rw [hunf, if_neg hb]
        rw [heq]
        obtain ⟨h1, h2, h3⟩ := ih hp'
        refine ⟨h1, by omega, ?_⟩
        intro x hx hxle
        by_cases hxp : x = p + 1
        · subst hxp
          rcases List.mem_cons.mp hx with h | h
          · omega
          · have hmm := (newlineStarts_mem bs 0 (p + 1)).mp h
            have : p + 1 - 0 - 1 = p := by omega
            rw [this] at hmm
            exact absurd hmm.2.2 hb
        · exact h3 x hx (by omega)

theorem starts_lookup_eq_lineStartAt {bs : List Nat} {p : Nat}
    (hp : p ≤ bs.length) (d : Nat) :
    (computeLineStarts bs).getD
        ((computeLineStarts bs).countP (fun s => decide (s ≤ p)) - 1) d
      = lineStartAt bs p := by
  have hl := computeLineStarts_pairwise bs
  have hex : ∃ a ∈ computeLineStarts bs, a ≤ p :=
    ⟨0, zero_mem_computeLineStarts bs, by omega⟩
  obtain ⟨m1, m2, m3⟩ := sorted_countP_getD _ hl p d hex
  obtain ⟨l1, l2, l3⟩ := lineStartAt_is_start bs p hp
  have h1 := m3 _ l1 l2
  have h2 := l3 _ m1 m2
  omega

theorem sorted_getD_lt {l : List Nat} (hl : l.Pairwise (· < ·)) {i j : Nat}
    (hij : i < j) (hj : j < l.length) : l.getD i 0 < l.getD j 0 := by
  have hi : i < l.length := lt_trans hij hj
  rw [List.getD_eq_getElem?_getD, List.getElem?_eq_getElem hi, Option.getD_some,
    List.getD_eq_getElem?_getD, List.getElem?_eq_getElem hj, Option.getD_some]
  exact List.pairwise_iff_getElem.mp hl i j hi hj hij

theorem new_fields (tb : TextBuffer) (p e : Nat) :
    (LineIterator.new tb p e).buffer_len = tb.len ∧
    (LineIterator.new tb p e).estimated_line_length = e :=
  ⟨rfl, rfl⟩

theorem new_cur_le (tb : TextBuffer) (p e : Nat) :
    (LineIterator.new tb p e).current_pos ≤ tb.len := by
  unfold LineIterator.new
  simp only []
  split
  · omega
  · split
    · unfold TextBuffer.position_to_offset
      exact min_le_right _ _
    · exact le_trans (min_le_right _ _) (min_le_right _ _)

theorem new_cur_eq_lineStartAt {tb : TextBuffer} (hwf : tb.WF)
    (he : tb.exactMeta = true) {p : Nat} (hp : p ≤ tb.len) (e : Nat) :
    (LineIterator.new tb p e).current_pos = lineStartAt tb.content p := by
  have hlen : tb.content.length = tb.len := content_length hwf
  unfold LineIterator.new
  simp only [min_eq_left hp]
  by_cases hp0 : p = 0
  · subst hp0
    simp [lineStartAt]
  · rw [if_neg hp0]
    unfold TextBuffer.offset_to_position
    rw [if_pos he]
    simp only []
    unfold TextBuffer.position_to_offset
    simp only []
    rw [starts_lookup_eq_lineStartAt (by omega) tb.len]
    have h2 := (lineStartAt_is_start tb.content p (by omega)).2.1
    rw [Nat.add_zero, min_eq_left (by omega)]

theorem prev_exact_step {tb : TextBuffer} {it : LineIterator} (hwf : tb.WF)
    (he : tb.exactMeta = true) {k : Nat} (hk1 : 1 ≤ k)
    (hk : k < (computeLineStarts tb.content).length)
    (hcur : it.current_pos = (computeLineStarts tb.content).getD k 0) :
    LineIterator.prev tb it =
      (some ((computeLineStarts tb.content).getD (k - 1) 0,
          utf8LossyDecode
            ((tb.content.take ((computeLineStarts tb.content).getD k 0)).drop
              ((computeLineStarts tb.content).getD (k - 1) 0))),
        { it with current_pos := (computeLineStarts tb.content).getD (k - 1) 0 }) := by
  have hpw := computeLineStarts_pairwise tb.content
  have hlt : (computeLineStarts tb.content).getD 0 0
      < (computeLineStarts tb.content).getD k 0 := by
    exact sorted_getD_lt hpw (by omega) hk
  have h0 : (computeLineStarts tb.content).getD 0 0 = 0 := by
    unfold computeLineStarts
    rw [List.getD_cons_zero]
  have hcur0 : it.current_pos ≠ 0 := by omega
  unfold LineIterator.prev
  rw [if_neg hcur0]
  unfold TextBuffer.offset_to_position
  rw [if_pos he]
  simp only [hcur]
  rw [sorted_countP_at _ hpw k hk]
  simp only [Nat.add_sub_cancel]
  rw [if_neg (by omega)]
  unfold TextBuffer.line_range
  rw [if_pos (by omega)]
  simp only []
  have hk1' : k - 1 + 1 = k := by omega
  rw [hk1', get?_eq_some_getD hk]
  simp only []
  have hmono : (computeLineStarts tb.content).getD (k - 1) 0
      ≤ (computeLineStarts tb.content).getD k 0 :=
    le_of_lt (sorted_getD_lt hpw (by omega) hk)
  have harith : (computeLineStarts tb.content).getD (k - 1) 0 +
      ((computeLineStarts tb.content).getD k 0 -
        (computeLineStarts tb.content).getD (k - 1) 0)
      = (computeLineStarts tb.content).getD k 0 := by omega
  rw [harith, prevExtract_spec hwf]

theorem prev_estimated_step {tb : TextBuffer} {it : LineIterator}
    (he : tb.exactMeta = false) (hell : 0 < it.estimated_line_length)
    (hcur : it.estimated_line_length ≤ it.current_pos)
    (hle : it.current_pos ≤ tb.len) :
    LineIterator.prev tb it =
      (some ((it.current_pos / it.estimated_line_length - 1) * it.estimated_line_length,
          utf8LossyDecode
            ((tb.content.drop
                ((it.current_pos / it.estimated_line_length - 1) *
                  it.estimated_line_length)).take it.estimated_line_length)),
        { it with current_pos :=
            (it.current_pos / it.estimated_line_length - 1) *
              it.estimated_line_length }) := by
  have hq1 : 1 ≤ it.current_pos / it.estimated_line_length :=
    (Nat.one_le_div_iff hell).mpr hcur
  have hmul : (it.current_pos / it.estimated_line_length) * it.estimated_line_length
      ≤ it.current_pos := Nat.div_mul_le_self _ _
  unfold LineIterator.prev
  rw [if_neg (by omega)]
  unfold TextBuffer.offset_to_position
  rw [if_neg (by simp [he])]
  simp only []
  rw [if_neg (by omega)]
  unfold TextBuffer.get_text_range
  have hsub : (it.current_pos / it.estimated_line_length - 1) * it.estimated_line_length
      = (it.current_pos / it.estimated_line_length) * it.estimated_line_length
        - it.estimated_line_length := Nat.sub_one_mul _ _
  have hge : it.estimated_line_length
      ≤ (it.current_pos / it.estimated_line_length) * it.estimated_line_length := by
    calc it.estimated_line_length = 1 * it.estimated_line_length := (one_mul _).symm
    _ ≤ _ := Nat.mul_le_mul_right _ hq1
  rw [if_pos (by omega)]

/-! Facts about the lossy UTF-8 decoder. -/

theorem isScalarValue_iff {c : Nat} :
    isScalarValue c = true ↔ c < 0x110000 ∧ ¬(0xD800 ≤ c ∧ c ≤ 0xDFFF) := by
  simp [isScalarValue]
  omega

theorem isCont_iff {b : Nat} : isCont b = true ↔ 0x80 ≤ b ∧ b ≤ 0xBF := by
  simp [isCont]

theorem scalar_repl : isScalarValue 0xFFFD = true := by decide

theorem scalar_ascii {b : Nat} (h : b < 128) : isScalarValue b = true := by
  rw [isScalarValue_iff]; omega

theorem scalar_2byte {b0 b1 : Nat} (h2 : ¬b0 < 194) (h3 : b0 ≤ 223)
    (hc : 128 ≤ b1 ∧ b1 ≤ 191) :
    isScalarValue ((b0 - 192) * 64 + (b1 - 128)) = true := by
  rw [isScalarValue_iff]; omega

theorem scalar_3byte {b0 b1 b2 : Nat} (h3 : ¬b0 ≤ 223) (h4 : b0 ≤ 239)
    (hg : (b0 = 224 ∧ 160 ≤ b1 ∧ b1 ≤ 191 ∨ b0 = 237 ∧ 128 ≤ b1 ∧ b1 ≤ 159) ∨
      (¬b0 = 224 ∧ ¬b0 = 237) ∧ 128 ≤ b1 ∧ b1 ≤ 191)
    (hc : 128 ≤ b2 ∧ b2 ≤ 191) :
    isScalarValue ((b0 - 224) * 4096 + (b1 - 128) * 64 + (b2 - 128)) = true := by
  rw [isScalarValue_iff]; omega

theorem scalar_4byte {b0 b1 b2 b3 : Nat} (h4 : ¬b0 ≤ 239) (h5 : b0 ≤ 244)
    (hg : (b0 = 240 ∧ 144 ≤ b1 ∧ b1 ≤ 191 ∨ b0 = 244 ∧ 128 ≤ b1 ∧ b1 ≤ 143) ∨
      (¬b0 = 240 ∧ ¬b0 = 244) ∧ 128 ≤ b1 ∧ b1 ≤ 191)
    (hc2 : 128 ≤ b2 ∧ b2 ≤ 191) (hc3 : 128 ≤ b3 ∧ b3 ≤ 191) :
    isScalarValue ((b0 - 240) * 262144 + (b1 - 128) * 4096 + (b2 - 128) * 64 + (b3 - 128))
      = true := by
  rw [isScalarValue_iff]; omega

theorem utf8LossyDecode_scalars : ∀ (bs : List Nat), ∀ c ∈ utf8LossyDecode bs,
    isScalarValue c = true := by
  intro bs
  induction bs using utf8LossyDecode.induct with
  | case1 => intro c hc; rw [utf8LossyDecode.eq_def] at hc; simp at hc
  | case2 b0 rest h ih =>
      intro c hc
      rw [utf8LossyDecode.eq_def] at hc
      simp [*] at hc
      rcases hc with rfl | hc
      · exact scalar_ascii h
      · exact ih c hc
  | case3 b0 rest h1 h2 ih =>
      intro c hc
      rw [utf8LossyDecode.eq_def] at hc
      simp [*] at hc
      rcases hc with rfl | hc
      · exact scalar_repl
      · exact ih c hc
  | case4 b0 h1 h2 h3 =>
      intro c hc
      rw [utf8LossyDecode.eq_def] at hc
      simp [*] at hc
      subst hc
      exact scalar_repl
  | case5 b0 h1 h2 h3 b1 rest hcont ih =>
      intro c hc
      rw [utf8LossyDecode.eq_def] at hc
      rw [isCont_iff] at hcont
      simp [*, isCont_iff] at hc
      rcases hc with rfl | hc
      · exact scalar_2byte h2 h3 hcont
      · exact ih c hc
  | case6 b0 h1 h2 h3 b1 rest hcont ih =>
      intro c hc
      rw [utf8LossyDecode.eq_def] at hc
      rw [isCont_iff] at hcont
      simp [*, isCont_iff] at hc
      rcases hc with rfl | hc
      · exact scalar_repl
      · exact ih c hc
  | case7 b0 h1 h2 h3 h4 =>
      intro c hc
      rw [utf8LossyDecode.eq_def] at hc
      simp [*] at hc
      subst hc
      exact scalar_repl
  | case8 b0 h1 h2 h3 h4 b1 hg =>
      intro c hc
      rw [utf8LossyDecode.eq_def] at hc
      simp only [Bool.or_eq_true, Bool.and_eq_true, decide_eq_true_eq,
        isCont_iff, ne_eq] at hg
      simp [*, isCont_iff] at hc
      subst hc
      exact scalar_repl
  | case9 b0 h1 h2 h3 h4 b1 hg b2 rest hcont ih =>
      intro c hc
      rw [utf8LossyDecode.eq_def] at hc
      simp only [Bool.or_eq_true, Bool.and_eq_true, decide_eq_true_eq,
        isCont_iff, ne_eq] at hg
      rw [isCont_iff] at hcont
      simp [*, isCont_iff] at hc
      rcases hc with rfl | hc
      · exact scalar_3byte h3 h4 hg hcont
      · exact ih c hc
  | case10 b0 h1 h2 h3 h4 b1 hg b2 rest hcont ih =>
      intro c hc
      rw [utf8LossyDecode.eq_def] at hc
      simp only [Bool.or_eq_true, Bool.and_eq_true, decide_eq_true_eq,
        isCont_iff, ne_eq] at hg
      simp [*, isCont_iff] at hc
      rcases hc with rfl | hc
      · exact scalar_repl
      · exact ih c hc
  | case11 b0 h1 h2 h3 h4 b1 rest hg ih =>
      intro c hc
      rw [utf8LossyDecode.eq_def] at hc
      simp only [Bool.or_eq_true, Bool.and_eq_true, decide_eq_true_eq,
        isCont_iff, ne_eq] at hg
      simp [*, isCont_iff] at hc
      rcases hc with rfl | hc
      · exact scalar_repl
      · exact ih c hc
  | case12 b0 h1 h2 h3 h4 h5 =>
      intro c hc
      rw [utf8LossyDecode.eq_def] at hc
      simp [*] at hc
      subst hc
      exact scalar_repl
  | case13 b0 h1 h2 h3 h4 h5 b1 hg =>
      intro c hc
      rw [utf8LossyDecode.eq_def] at hc
      simp only [Bool.or_eq_true, Bool.and_eq_true, decide_eq_true_eq,
        isCont_iff, ne_eq] at hg
      simp [*, isCont_iff] at hc
      subst hc
      exact scalar_repl
  | case14 b0 h1 h2 h3 h4 h5 b1 hg b2 hcont =>
      intro c hc
      rw [utf8LossyDecode.eq_def] at hc
      simp only [Bool.or_eq_true, Bool.and_eq_true, decide_eq_true_eq,
        isCont_iff, ne_eq] at hg
      rw [isCont_iff] at hcont
      simp [*, isCont_iff] at hc
      subst hc
      exact scalar_repl
  | case15 b0 h1 h2 h3 h4 h5 b1 hg b2 hcont2 b3 rest hcont3 ih =>
      intro c hc
      rw [utf8LossyDecode.eq_def] at hc
      simp only [Bool.or_eq_true, Bool.and_eq_true, decide_eq_true_eq,
        isCont_iff, ne_eq] at hg
      rw [isCont_iff] at hcont2
      rw [isCont_iff] at hcont3
      simp [*, isCont_iff] at hc
      rcases hc with rfl | hc
      · exact scalar_4byte h4 h5 hg hcont2 hcont3
      · exact ih c hc
  | case16 b0 h1 h2 h3 h4 h5 b1 hg b2 hcont2 b3 rest hcont3 ih =>
      intro c hc
      rw [utf8LossyDecode.eq_def] at hc
      simp only [Bool.or_eq_true, Bool.and_eq_true, decide_eq_true_eq,
        isCont_iff, ne_eq] at hg
      rw [isCont_iff] at hcont2
      simp [*, isCont_iff] at hc
      rcases hc with rfl | hc
      · exact scalar_repl
      · exact ih c hc
  | case17 b0 h1 h2 h3 h4 h5 b1 hg b2 rest hcont2 ih =>
      intro c hc
      rw [utf8LossyDecode.eq_def] at hc
      simp only [Bool.or_eq_true, Bool.and_eq_true, decide_eq_true_eq,
        isCont_iff, ne_eq] at hg
      simp [*, isCont_iff] at hc
      rcases hc with rfl | hc
      · exact scalar_repl
      · exact ih c hc
  | case18 b0 h1 h2 h3 h4 h5 b1 rest hg ih =>
      intro c hc
      rw [utf8LossyDecode.eq_def] at hc
      simp only [Bool.or_eq_true, Bool.and_eq_true, decide_eq_true_eq,
        isCont_iff, ne_eq] at hg
      simp [*, isCont_iff] at hc
      rcases hc with rfl | hc
      · exact scalar_repl
      · exact ih c hc
  | case19 b0 rest h1 h2 h3 h4 h5 ih =>
      intro c hc
      rw [utf8LossyDecode.eq_def] at hc
      simp [*] at hc
      rcases hc with rfl | hc
      · exact scalar_repl
      · exact ih c hc

/-! Round trips of the encoding engine. -/

theorem utf8LossyDecode_encodeChar (c : Nat) (hc : isScalarValue c = true)
    (rest : List Nat) :
    utf8LossyDecode (utf8EncodeChar c ++ rest) = c :: utf8LossyDecode rest := by
  rw [isScalarValue_iff] at hc
  unfold utf8EncodeChar
  by_cases h1 : c < 0x80
  · rw [if_pos h1]
    simp only [List.cons_append, List.nil_append]
    rw [utf8LossyDecode.eq_def]
    simp [h1]
  · rw [if_neg h1]
    by_cases h2 : c < 0x800
    · rw [if_pos h2]
      have e1 : ¬(0xC0 + c / 0x40 < 0x80) := by omega
      have e2 : ¬(0xC0 + c / 0x40 < 0xC2) := by omega
      have e3 : 0xC0 + c / 0x40 ≤ 0xDF := by omega
      have e4 : isCont (0x80 + c % 0x40) = true := by rw [isCont_iff]; omega
      simp only [List.cons_append, List.nil_append]
      rw [utf8LossyDecode.eq_def]
      simp [e1, e2, e3, e4]
      omega
    · by_cases h3 : c < 0x10000
      · rw [if_neg h2, if_pos h3]
        have e1 : ¬(0xE0 + c / 0x1000 < 0x80) := by omega
        have e2 : ¬(0xE0 + c / 0x1000 < 0xC2) := by omega
        have e3 : ¬(0xE0 + c / 0x1000 ≤ 0xDF) := by omega
        have e4 : 0xE0 + c / 0x1000 ≤ 0xEF := by omega
        have e5 : (decide (0xE0 + c / 0x1000 = 0xE0) &&
              (decide (0xA0 ≤ 0x80 + c / 0x40 % 0x40) &&
                decide (0x80 + c / 0x40 % 0x40 ≤ 0xBF)) ||
            decide (0xE0 + c / 0x1000 = 0xED) &&
              (decide (0x80 ≤ 0x80 + c / 0x40 % 0x40) &&
                decide (0x80 + c / 0x40 % 0x40 ≤ 0x9F)) ||
            decide (0xE0 + c / 0x1000 ≠ 0xE0) && decide (0xE0 + c / 0x1000 ≠ 0xED) &&
              isCont (0x80 + c / 0x40 % 0x40)) = true := by
          simp only [Bool.or_eq_true, Bool.and_eq_true, decide_eq_true_eq, ne_eq,
            isCont_iff]
          have k1 : c / 0x1000 = c / 0x40 / 0x40 := by
            rw [Nat.div_div_eq_div_mul]
          rw [k1]
          omega
        have e6 : isCont (0x80 + c % 0x40) = true := by rw [isCont_iff]; omega
        simp only [List.cons_append, List.nil_append]
        rw [utf8LossyDecode.eq_def]
        simp [e1, e2, e3, e4, e5, e6]
        have k1 : c / 0x1000 = c / 0x40 / 0x40 := by
          rw [Nat.div_div_eq_div_mul]
        rw [k1]
        split
        · congr 1
          omega
        · exfalso
          rename_i hC
          rw [isCont_iff] at hC
          omega
      · rw [if_neg h2, if_neg h3]
        have e1 : ¬(0xF0 + c / 0x40000 < 0x80) := by omega
        have e2 : ¬(0xF0 + c / 0x40000 < 0xC2) := by omega
        have e3 : ¬(0xF0 + c / 0x40000 ≤ 0xDF) := by omega
        have e4 : ¬(0xF0 + c / 0x40000 ≤ 0xEF) := by omega
        have e5 : 0xF0 + c / 0x40000 ≤ 0xF4 := by omega
        have e6 : (decide (0xF0 + c / 0x40000 = 0xF0) &&
              (decide (0x90 ≤ 0x80 + c / 0x1000 % 0x40) &&
                decide (0x80 + c / 0x1000 % 0x40 ≤ 0xBF)) ||
            decide (0xF0 + c / 0x40000 = 0xF4) &&
              (decide (0x80 ≤ 0x80 + c / 0x1000 % 0x40) &&
                decide (0x80 + c / 0x1000 % 0x40 ≤ 0x8F)) ||
            decide (0xF0 + c / 0x40000 ≠ 0xF0) && decide (0xF0 + c / 0x40000 ≠ 0xF4) &&
              isCont (0x80 + c / 0x1000 % 0x40)) = true := by
          simp only [Bool.or_eq_true, Bool.and_eq_true, decide_eq_true_eq, ne_eq,
            isCont_iff]
          have k2 : c / 0x40000 = c / 0x1000 / 0x40 := by
            rw [Nat.div_div_eq_div_mul]
          rw [k2]
          omega
        have e7 : isCont (0x80 + c / 0x40 % 0x40) = true := by rw [isCont_iff]; omega
        have e8 : isCont (0x80 + c % 0x40) = true := by rw [isCont_iff]; omega
        simp only [List.cons_append, List.nil_append]
        rw [utf8LossyDecode.eq_def]
        simp [e1, e2, e3, e4, e5, e6, e7, e8]
        have k2 : c / 0x40000 = c / 0x1000 / 0x40 := by
          rw [Nat.div_div_eq_div_mul]
        have k1 : c / 0x1000 = c / 0x40 / 0x40 := by
          rw [Nat.div_div_eq_div_mul]
        rw [k2, k1]
        split
        · congr 1
          omega
        · exfalso
          rename_i hC
          rw [isCont_iff] at hC
          omega

theorem utf8LossyDecode_encode (cs : List Nat)
    (h : ∀ c ∈ cs, isScalarValue c = true) :
    utf8LossyDecode (utf8Encode cs) = cs := by
  induction cs with
  | nil => rfl
  | cons c cs ih =>
      unfold utf8Encode
      simp only [List.map_cons, List.flatten_cons]
      rw [utf8LossyDecode_encodeChar c (h c (List.mem_cons_self _ _))]
      unfold utf8Encode at ih
      rw [ih fun x hx => h x (List.mem_cons_of_mem _ hx)]

theorem utf16Combine_encodeUnits (c : Nat) (hc : isScalarValue c = true)
    (rest : List Nat) :
    utf16Combine (utf16EncodeUnits c ++ rest) = c :: utf16Combine rest := by
  rw [isScalarValue_iff] at hc
  unfold utf16EncodeUnits
  by_cases h1 : c < 0x10000
  · rw [if_pos h1]
    simp only [List.cons_append, List.nil_append]
    rw [utf16Combine.eq_def]
    have e1 : (decide (c < 0xD800) || decide (0xE000 ≤ c)) = true := by
      simp only [Bool.or_eq_true, decide_eq_true_eq]
      omega
    simp [e1]
  · rw [if_neg h1]
    have hlt : (c - 0x10000) / 0x400 < 0x400 := by omega
    have e1 : ¬((decide (0xD800 + (c - 0x10000) / 0x400 < 0xD800) ||
        decide (0xE000 ≤ 0xD800 + (c - 0x10000) / 0x400)) = true) := by
      simp only [Bool.or_eq_true, decide_eq_true_eq]
      omega
    have e2 : 0xD800 + (c - 0x10000) / 0x400 < 0xDC00 := by omega
    have e3 : (0xDC00 ≤ 0xDC00 + (c - 0x10000) % 0x400 &&
        decide (0xDC00 + (c - 0x10000) % 0x400 < 0xE000)) = true := by
      simp only [Bool.and_eq_true, decide_eq_true_eq]
      omega
    simp only [List.cons_append, List.nil_append]
    rw [utf16Combine.eq_def]
    simp [e1, e2, e3]
    have hdm : (c - 0x10000) / 0x400 * 0x400 + (c - 0x10000) % 0x400
        = c - 0x10000 := Nat.div_add_mod' _ _
    rw [if_neg (show ¬(0xE000 ≤ 0xD800 + (c - 0x10000) / 0x400) by omega)]
    rw [if_pos (show 0xDC00 + (c - 0x10000) % 0x400 < 0xE000 by omega)]
    have hv : 0x10000 + (c - 0x10000) / 0x400 * 0x400 + (c - 0x10000) % 0x400 = c := by
      omega
    rw [hv]

theorem utf16Combine_encode (cs : List Nat)
    (h : ∀ c ∈ cs, isScalarValue c = true) :
    utf16Combine (utf16Units cs) = cs := by
  induction cs with
  | nil => rfl
  | cons c cs ih =>
      unfold utf16Units
      simp only [List.map_cons, List.flatten_cons]
      rw [utf16Combine_encodeUnits c (h c (List.mem_cons_self _ _))]
      unfold utf16Units at ih
      rw [ih fun x hx => h x (List.mem_cons_of_mem _ hx)]

theorem bytesToUnitsLE_inverse (us : List Nat) :
    bytesToUnitsLE (unitsToBytesLE us) = us := by
  induction us with
  | nil => rfl
  | cons u us ih =>
      unfold unitsToBytesLE
      simp only [List.map_cons, List.flatten_cons, List.cons_append,
        List.nil_append]
      rw [bytesToUnitsLE]
      unfold unitsToBytesLE at ih
      rw [ih]
      congr 1
      omega

theorem bytesToUnitsBE_inverse (us : List Nat) (h : ∀ u ∈ us, u < 0x10000) :
    bytesToUnitsBE (unitsToBytesBE us) = us := by
  induction us with
  | nil => rfl
  | cons u us ih =>
      unfold unitsToBytesBE
      simp only [List.map_cons, List.flatten_cons, List.cons_append,
        List.nil_append]
      rw [bytesToUnitsBE]
      unfold unitsToBytesBE at ih
      rw [ih fun x hx => h x (List.mem_cons_of_mem _ hx)]
      congr 1
      have := h u (List.mem_cons_self _ _)
      omega

theorem unitsToBytesLE_length (us : List Nat) :
    (unitsToBytesLE us).length = 2 * us.length := by
  induction us with
  | nil => rfl
  | cons u us ih =>
      rw [show unitsToBytesLE (u :: us)
        = u % 256 :: u / 256 :: unitsToBytesLE us from rfl]
      simp only [List.length_cons, ih]
      omega

theorem unitsToBytesBE_length (us : List Nat) :
    (unitsToBytesBE us).length = 2 * us.length := by
  induction us with
  | nil => rfl
  | cons u us ih =>
      rw [show unitsToBytesBE (u :: us)
        = u / 256 :: u % 256 :: unitsToBytesBE us from rfl]
      simp only [List.length_cons, ih]
      omega

theorem utf16EncodeUnits_lt (c : Nat) (hc : isScalarValue c = true) :
    ∀ u ∈ utf16EncodeUnits c, u < 0x10000 := by
  rw [isScalarValue_iff] at hc
  intro u hu
  unfold utf16EncodeUnits at hu
  by_cases h1 : c < 0x10000
  · rw [if_pos h1] at hu
    rw [List.mem_singleton] at hu
    omega
  · rw [if_neg h1] at hu
    have hd : (c - 0x10000) / 0x400 < 0x400 := by omega
    rcases List.mem_cons.mp hu with rfl | hu
    · omega
    · rw [List.mem_singleton] at hu
      omega

theorem utf16units_lt (cs : List Nat) (h : ∀ c ∈ cs, isScalarValue c = true) :
    ∀ u ∈ utf16Units cs, u < 0x10000 := by
  induction cs with
  | nil => intro u hu; simp [utf16Units] at hu
  | cons c cs ih =>
      intro u hu
      unfold utf16Units at hu
      simp only [List.map_cons, List.flatten_cons, List.mem_append] at hu
      rcases hu with hu | hu
      · exact utf16EncodeUnits_lt c (h c (List.mem_cons_self _ _)) u hu
      · exact ih (fun x hx => h x (List.mem_cons_of_mem _ hx)) u hu

theorem w1252_byte_roundtrip : ∀ b < 0x100, w1252EncodeChar (w1252DecodeByte b) = b := by
  decide

theorem gbDecode_encodeChar (c : Nat) (h : gbEncodable c = true) (bs : List Nat) :
    gbDecode (gbEncodeChar c ++ bs) = c :: gbDecode bs := by
  simp only [gbEncodable, Bool.or_eq_true, decide_eq_true_eq] at h
  unfold gbEncodeChar
  rcases h with ((((h | h) | h) | h) | h)
  · have h1 : ¬c = 0x4F60 := by omega
    have h2 : ¬c = 0x597D := by omega
    have h3 : ¬c = 0x4E16 := by omega
    have h4 : ¬c = 0x754C := by omega
    rw [if_neg h1, if_neg h2, if_neg h3, if_neg h4, if_pos h]
    simp only [List.cons_append, List.nil_append]
    rw [gbDecode.eq_def]
    simp [h]
  · subst h
    show gbDecode (0xC4 :: 0xE3 :: bs) = 0x4F60 :: gbDecode bs
    rw [gbDecode.eq_def]
    norm_num
  · subst h
    show gbDecode (0xBA :: 0xC3 :: bs) = 0x597D :: gbDecode bs
    rw [gbDecode.eq_def]
    norm_num
  · subst h
    show gbDecode (0xCA :: 0xC0 :: bs) = 0x4E16 :: gbDecode bs
    rw [gbDecode.eq_def]
    norm_num
  · subst h
    show gbDecode (0xBD :: 0xE7 :: bs) = 0x754C :: gbDecode bs
    rw [gbDecode.eq_def]
    norm_num

theorem gbDecode_encode (cs : List Nat) (h : ∀ c ∈ cs, gbEncodable c = true) :
    gbDecode ((cs.map gbEncodeChar).flatten) = cs := by
  induction cs with
  | nil => rfl
  | cons c cs ih =>
      simp only [List.map_cons, List.flatten_cons]
      rw [gbDecode_encodeChar c (h c (List.mem_cons_self _ _))]
      rw [ih fun x hx => h x (List.mem_cons_of_mem _ hx)]

theorem encode_decode_bytes (d : EncodingKind) (bs : List Nat)
    (h : ValidBytesFor d bs) : encodeBytes d (decodeBytes d bs) = bs := by
  cases d with
  | utf8 =>
      obtain ⟨cs, hcs, rfl⟩ := h
      simp only [decodeBytes, encodeBytes]
      rw [utf8LossyDecode_encode cs hcs]
  | utf8bom =>
      obtain ⟨cs, hcs, rfl⟩ := h
      simp only [decodeBytes, encodeBytes]
      simp only [List.cons_append, List.nil_append]
      rw [show ((0xEF : Nat) :: (0xBB : Nat) :: (0xBF : Nat) ::
        utf8Encode cs).drop 3 = utf8Encode cs from rfl]
      rw [utf8LossyDecode_encode cs hcs]
  | utf16le =>
      obtain ⟨cs, hcs, rfl⟩ := h
      simp only [decodeBytes, encodeBytes]
      simp only [List.cons_append, List.nil_append]
      simp only [List.drop_succ_cons, List.drop_zero]
      rw [bytesToUnitsLE_inverse, utf16Combine_encode cs hcs]
      simp [unitsToBytesLE_length, Nat.mul_mod_right]
  | utf16be =>
      obtain ⟨cs, hcs, rfl⟩ := h
      simp only [decodeBytes, encodeBytes]
      simp only [List.cons_append, List.nil_append]
      simp only [List.drop_succ_cons, List.drop_zero]
      rw [bytesToUnitsBE_inverse _ (utf16units_lt cs hcs),
        utf16Combine_encode cs hcs]
      simp [unitsToBytesBE_length, Nat.mul_mod_right]
  | ascii =>
      simp only [decodeBytes, encodeBytes]
      rw [List.map_map]
      conv_rhs => rw [← List.map_id bs]
      apply List.map_congr_left
      intro b hb
      have hb8 := h b hb
      simp [Function.comp, hb8]
  | latin1 =>
      simp only [decodeBytes, encodeBytes]
      rw [List.map_map]
      conv_rhs => rw [← List.map_id bs]
      apply List.map_congr_left
      intro b hb
      have hb8 := h b hb
      simp [Function.comp, hb8]
  | windows1252 =>
      simp only [decodeBytes, encodeBytes]
      rw [List.map_map]
      conv_rhs => rw [← List.map_id bs]
      apply List.map_congr_left
      intro b hb
      simp only [Function.comp_apply, id_eq]
      exact w1252_byte_roundtrip b (by have := h b hb; omega)
  | gb18030 =>
      obtain ⟨cs, hcs, rfl⟩ := h
      simp only [decodeBytes, encodeBytes]
      rw [gbDecode_encode cs hcs]

end Fresh

namespace Fresh

/-! Iteration lemmas: how the fuel-indexed collectors unfold. -/

theorem iterForward_succ {tb : TextBuffer} {f : Nat} {it it1 : LineIterator}
    {pair : Nat × List Nat} (h : LineIterator.next tb it = (some pair, it1)) :
    iterForward tb (f + 1) it = pair :: iterForward tb f it1 := by
  have hu : iterForward tb (f + 1) it = match LineIterator.next tb it with
      | (none, _) => []
      | (some pair, it1) => pair :: iterForward tb f it1 := rfl
  rw [hu, h]

theorem iterBackward_succ {tb : TextBuffer} {f : Nat} {it it1 : LineIterator}
    {pair : Nat × List Nat} (h : LineIterator.prev tb it = (some pair, it1)) :
    iterBackward tb (f + 1) it = pair :: iterBackward tb f it1 := by
  have hu : iterBackward tb (f + 1) it = match LineIterator.prev tb it with
      | (none, _) => []
      | (some pair, it1) => pair :: iterBackward tb f it1 := rfl
  rw [hu, h]

theorem prev_at_zero (tb : TextBuffer) (it : LineIterator) (h : it.current_pos = 0) :
    LineIterator.prev tb it = (none, it) := by
  unfold LineIterator.prev
  rw [if_pos h]

theorem iterForward_at_end (tb : TextBuffer) (it : LineIterator)
    (h : it.buffer_len ≤ it.current_pos) (fuel : Nat) : iterForward tb fuel it = [] := by
  cases fuel with
  | zero => rfl
  | succ f =>
      unfold iterForward
      rw [next_none h]

theorem iterBackward_at_zero (tb : TextBuffer) (it : LineIterator)
    (h : it.current_pos = 0) (fuel : Nat) : iterBackward tb fuel it = [] := by
  cases fuel with
  | zero => rfl
  | succ f =>
      unfold iterBackward
      rw [prev_at_zero tb it h]

/-! How the reference scan relates to the newline-start positions. -/

theorem newlineStarts_nil_scanLine : ∀ (bs : List Nat) (i : Nat),
    newlineStarts bs i = [] → scanLine bs = bs := by
  intro bs
  induction bs with
  | nil => intro i _; rfl
  | cons b rest ih =>
      intro i h
      unfold newlineStarts at h
      by_cases hb : b = 10
      · rw [if_pos hb] at h
        exact absurd h (by simp)
      · rw [if_neg hb] at h
        unfold scanLine
        rw [if_neg hb, ih (i + 1) h]

theorem newlineStarts_cons_scanLine : ∀ (bs : List Nat) (i j : Nat) (tl : List Nat),
    newlineStarts bs i = j :: tl → scanLine bs = bs.take (j - i) := by
  intro bs
  induction bs with
  | nil => intro i j tl h; exact absurd h (by simp [newlineStarts])
  | cons b rest ih =>
      intro i j tl h
      unfold newlineStarts at h
      by_cases hb : b = 10
      · rw [if_pos hb] at h
        rw [List.cons_eq_cons] at h
        obtain ⟨h1, _⟩ := h
        have hji : j - i = 1 := by omega
        rw [hji]
        subst hb
        rfl
      · rw [if_neg hb] at h
        have hmem : j ∈ newlineStarts rest (i + 1) := by
          rw [h]; exact List.mem_cons_self _ _
        have hj := (newlineStarts_mem_bounds rest (i + 1) j hmem).1
        unfold scanLine
        rw [if_neg hb, ih (i + 1) j tl h]
        have hji : j - i = (j - (i + 1)) + 1 := by omega
        rw [hji]
        rfl

theorem newlineStarts_cons_tail : ∀ (bs : List Nat) (i j : Nat) (tl : List Nat),
    newlineStarts bs i = j :: tl → tl = newlineStarts (bs.drop (j - i)) j := by
  intro bs
  induction bs with
  | nil => intro i j tl h; exact absurd h (by simp [newlineStarts])
  | cons b rest ih =>
      intro i j tl h
      unfold newlineStarts at h
      by_cases hb : b = 10
      · rw [if_pos hb] at h
        rw [List.cons_eq_cons] at h
        obtain ⟨h1, h2⟩ := h
        have hji : j - i = 1 := by omega
        rw [hji]
        rw [List.drop_one, List.tail_cons, ← h1]
        exact h2.symm
      · rw [if_neg hb] at h
        have hmem : j ∈ newlineStarts rest (i + 1) := by
          rw [h]; exact List.mem_cons_self _ _
        have hj := (newlineStarts_mem_bounds rest (i + 1) j hmem).1
        have hji : j - i = (j - (i + 1)) + 1 := by omega
        rw [hji, List.drop_succ_cons]
        exact ih (i + 1) j tl h

/-! The forward run produces exactly the reference line decomposition. -/

theorem iterForward_spec {tb : TextBuffer} (hwf : tb.WF) (e : Nat) :
    ∀ (ns : List Nat) (s fuel : Nat), s ≤ tb.len →
      newlineStarts (tb.content.drop s) s = ns → ns.length < fuel →
      iterForward tb fuel
          { current_pos := s, buffer_len := tb.len, estimated_line_length := e }
        = linePairs tb.content s ns := by
  have hlen : tb.content.length = tb.len := content_length hwf
  intro ns
  induction ns with
  | nil =>
      intro s fuel hs hns hfuel
      by_cases hslen : tb.len ≤ s
      · rw [show linePairs tb.content s [] = [] from by
          simp only [linePairs]; rw [if_pos (by omega)]]
        exact iterForward_at_end tb _ hslen fuel
      · push_neg at hslen
        obtain ⟨f, rfl⟩ : ∃ f, fuel = f + 1 := ⟨fuel - 1, by omega⟩
        have hstep : LineIterator.next tb
            { current_pos := s, buffer_len := tb.len, estimated_line_length := e }
            = (some (s, utf8LossyDecode (scanLine (tb.content.drop s))),
              { current_pos := s + (scanLine (tb.content.drop s)).length,
                buffer_len := tb.len, estimated_line_length := e }) :=
          @next_some tb
            { current_pos := s, buffer_len := tb.len, estimated_line_length := e }
            hwf rfl hslen
        rw [iterForward_succ hstep]
        rw [newlineStarts_nil_scanLine _ _ hns]
        rw [List.length_drop, hlen]
        have hend : iterForward tb f
            { current_pos := s + (tb.len - s), buffer_len := tb.len,
              estimated_line_length := e } = [] :=
          iterForward_at_end tb _ (show tb.len ≤ s + (tb.len - s) from by omega) f
        rw [hend]
        simp only [linePairs]
        rw [if_neg (by omega)]
  | cons t ns ih =>
      intro s fuel hs hns hfuel
      obtain ⟨f, rfl⟩ : ∃ f, fuel = f + 1 := ⟨fuel - 1, by omega⟩
      have hmem : t ∈ newlineStarts (tb.content.drop s) s := by
        rw [hns]; exact List.mem_cons_self _ _
      have hb := newlineStarts_mem_bounds _ _ _ hmem
      have hdl : (tb.content.drop s).length = tb.len - s := by
        rw [List.length_drop, hlen]
      have hslen : s < tb.len := by omega
      have htlen : t ≤ tb.len := by omega
      have hstep : LineIterator.next tb
          { current_pos := s, buffer_len := tb.len, estimated_line_length := e }
          = (some (s, utf8LossyDecode (scanLine (tb.content.drop s))),
            { current_pos := s + (scanLine (tb.content.drop s)).length,
              buffer_len := tb.len, estimated_line_length := e }) :=
        @next_some tb
          { current_pos := s, buffer_len := tb.len, estimated_line_length := e }
          hwf rfl hslen
      rw [iterForward_succ hstep]
      rw [newlineStarts_cons_scanLine _ _ _ _ hns]
      have htake : ((tb.content.drop s).take (t - s)).length = t - s := by
        rw [List.length_take]
        omega
      rw [htake, show s + (t - s) = t from by omega]
      have htail : newlineStarts (tb.content.drop t) t = ns := by
        have h3 := newlineStarts_cons_tail _ _ _ _ hns
        rw [List.drop_drop] at h3
        rw [show s + (t - s) = t from by omega] at h3
        exact h3.symm
      rw [ih t f htlen htail (by simpa using hfuel)]
      simp only [linePairs]

end Fresh

namespace Fresh

/-! The forward decomposition in start/end slice form, and its indexing. -/

theorem linePairs_eq_pairsAux (bs : List Nat)
    (hend : bs = [] ∨ bs.getD (bs.length - 1) 0 = 10) :
    ∀ (ns : List Nat) (s : Nat), s ≤ bs.length →
      newlineStarts (bs.drop s) s = ns → linePairs bs s ns = pairsAux bs s ns := by
  intro ns
  induction ns with
  | nil =>
      intro s hs hns
      have hslen : bs.length ≤ s := by
        by_contra hlt
        push_neg at hlt
        have hbs : bs ≠ [] := by
          intro h
          subst h
          simp at hlt
        have h10 : bs.getD (bs.length - 1) 0 = 10 := by
          rcases hend with h | h
          · exact absurd h hbs
          · exact h
        have hdl : (bs.drop s).length = bs.length - s := List.length_drop _ _
        have hmem : bs.length ∈ newlineStarts (bs.drop s) s := by
          refine (newlineStarts_mem (bs.drop s) s bs.length).mpr ⟨hlt, by omega, ?_⟩
          rw [List.getD_eq_getElem?_getD, List.getElem?_drop,
            show s + (bs.length - s - 1) = bs.length - 1 from by omega,
            ← List.getD_eq_getElem?_getD]
          exact h10
        rw [hns] at hmem
        simp at hmem
      simp only [linePairs, pairsAux]
      rw [if_pos hslen]
  | cons t ns ih =>
      intro s hs hns
      have hmem : t ∈ newlineStarts (bs.drop s) s := by
        rw [hns]; exact List.mem_cons_self _ _
      have hb := newlineStarts_mem_bounds _ _ _ hmem
      have hdl : (bs.drop s).length = bs.length - s := List.length_drop _ _
      have htail : newlineStarts (bs.drop t) t = ns := by
        have h3 := newlineStarts_cons_tail _ _ _ _ hns
        rw [List.drop_drop] at h3
        rw [show s + (t - s) = t from by omega] at h3
        exact h3.symm
      simp only [linePairs, pairsAux]
      rw [ih t (by omega) htail, List.drop_take]

theorem pairsAux_length (bs : List Nat) : ∀ (ns : List Nat) (s : Nat),
    (pairsAux bs s ns).length = ns.length := by
  intro ns
  induction ns with
  | nil => intro s; rfl
  | cons t ns ih =>
      intro s
      simp only [pairsAux, List.length_cons, ih]

theorem pairsAux_get? (bs : List Nat) : ∀ (ns : List Nat) (s j : Nat), j < ns.length →
    (pairsAux bs s ns).get? j =
      some ((s :: ns).getD j 0,
        utf8LossyDecode
          ((bs.take ((s :: ns).getD (j + 1) 0)).drop ((s :: ns).getD j 0))) := by
  intro ns
  induction ns with
  | nil => intro s j hj; simp at hj
  | cons t ns ih =>
      intro s j hj
      cases j with
      | zero => rfl
      | succ j =>
          have hj' : j < ns.length := by simpa using hj
          rw [show pairsAux bs s (t :: ns)
              = (s, utf8LossyDecode ((bs.take t).drop s)) :: pairsAux bs t ns from rfl]
          rw [List.get?_cons_succ, ih t j hj']
          rfl

/-! The backward run from the line start of index `k` retraces the first `k`
pairs of the forward decomposition, in reverse. -/

theorem iterBackward_spec {tb : TextBuffer} (hwf : tb.WF) (he : tb.exactMeta = true)
    (e : Nat) : ∀ (k fuel : Nat), k < (computeLineStarts tb.content).length →
      k ≤ fuel →
      iterBackward tb fuel
          { current_pos := (computeLineStarts tb.content).getD k 0,
            buffer_len := tb.len, estimated_line_length := e }
        = ((pairsAux tb.content 0 (newlineStarts tb.content 0)).take k).reverse := by
  intro k
  induction k with
  | zero =>
      intro fuel _ _
      have h00 :
          ({ current_pos := (computeLineStarts tb.content).getD 0 0,
             buffer_len := tb.len,
             estimated_line_length := e } : LineIterator).current_pos = 0 := by
        show (computeLineStarts tb.content).getD 0 0 = 0
        unfold computeLineStarts
        rw [List.getD_cons_zero]
      rw [iterBackward_at_zero tb _ h00 fuel]
      rfl
  | succ k ih =>
      intro fuel h1 h2
      obtain ⟨f, rfl⟩ : ∃ f, fuel = f + 1 := ⟨fuel - 1, by omega⟩
      have hk' : k < (computeLineStarts tb.content).length := by omega
      have hk0 : k < (newlineStarts tb.content 0).length := by
        have h1' := h1
        unfold computeLineStarts at h1'
        simp only [List.length_cons] at h1'
        omega
      have hstep : LineIterator.prev tb
          { current_pos := (computeLineStarts tb.content).getD (k + 1) 0,
            buffer_len := tb.len, estimated_line_length := e }
          = (some ((computeLineStarts tb.content).getD k 0,
              utf8LossyDecode
                ((tb.content.take ((computeLineStarts tb.content).getD (k + 1) 0)).drop
                  ((computeLineStarts tb.content).getD k 0))),
            { current_pos := (computeLineStarts tb.content).getD k 0,
              buffer_len := tb.len, estimated_line_length := e }) :=
        @prev_exact_step tb
          { current_pos := (computeLineStarts tb.content).getD (k + 1) 0,
            buffer_len := tb.len, estimated_line_length := e }
          hwf he (k + 1) (by omega) h1 rfl
      rw [iterBackward_succ hstep]
      rw [ih f hk' (by omega)]
      have hget : (pairsAux tb.content 0 (newlineStarts tb.content 0)).get? k
          = some ((computeLineStarts tb.content).getD k 0,
              utf8LossyDecode
                ((tb.content.take ((computeLineStarts tb.content).getD (k + 1) 0)).drop
                  ((computeLineStarts tb.content).getD k 0))) :=
        pairsAux_get? tb.content (newlineStarts tb.content 0) 0 k hk0
      rw [List.take_succ, ← List.get?_eq_getElem?, hget]
      simp

/-! Where `new` lands at the two document ends. -/

theorem new_at_zero (tb : TextBuffer) (e : Nat) :
    LineIterator.new tb 0 e
      = { current_pos := 0, buffer_len := tb.len, estimated_line_length := e } := by
  unfold LineIterator.new
  simp

theorem lineStartAt_full (bs : List Nat)
    (hend : bs = [] ∨ bs.getD (bs.length - 1) 0 = 10) :
    lineStartAt bs bs.length = bs.length := by
  by_cases hn : bs = []
  · subst hn
    rfl
  · have h10 : bs.getD (bs.length - 1) 0 = 10 := by
      rcases hend with h | h
      · exact absurd h hn
      · exact h
    have hpos : 0 < bs.length := List.length_pos.mpr hn
    obtain ⟨m, hm⟩ : ∃ m, bs.length = m + 1 := ⟨bs.length - 1, by omega⟩
    rw [hm]
    show (if bs.getD m 0 = 10 then m + 1 else lineStartAt bs m) = m + 1
    rw [if_pos (by rw [hm] at h10; simpa using h10)]

theorem starts_getD_last {bs : List Nat}
    (hend : bs = [] ∨ bs.getD (bs.length - 1) 0 = 10) :
    (computeLineStarts bs).getD ((computeLineStarts bs).length - 1) 0 = bs.length := by
  have hcnt : (computeLineStarts bs).countP (fun s => decide (s ≤ bs.length))
      = (computeLineStarts bs).length := by
    rw [List.countP_eq_length]
    intro a ha
    simpa using computeLineStarts_le bs a ha
  have h1 := @starts_lookup_eq_lineStartAt bs bs.length le_rfl 0
  rw [hcnt] at h1
  rw [h1]
  exact lineStartAt_full bs hend

theorem new_at_len {tb : TextBuffer} (hwf : tb.WF) (he : tb.exactMeta = true)
    (hend : tb.content = [] ∨ tb.content.getD (tb.content.length - 1) 0 = 10)
    (e : Nat) :
    (LineIterator.new tb tb.len e).current_pos
      = (computeLineStarts tb.content).getD
          ((computeLineStarts tb.content).length - 1) 0 := by
  have hlen : tb.content.length = tb.len := content_length hwf
  rw [new_cur_eq_lineStartAt hwf he le_rfl e, ← hlen, lineStartAt_full _ hend,
    starts_getD_last hend]

/-! Forward/backward symmetry of the line iteration in the exact regime, for
documents that are empty or end in a newline. -/

theorem iter_forward_backward {tb : TextBuffer} (hwf : tb.WF)
    (he : tb.exactMeta = true)
    (hend : tb.content = [] ∨ tb.content.getD (tb.content.length - 1) 0 = 10)
    (e : Nat) :
    iterBackward tb (computeLineStarts tb.content).length
        (LineIterator.new tb tb.len e)
      = (iterForward tb (computeLineStarts tb.content).length
          (LineIterator.new tb 0 e)).reverse := by
  have hlen : tb.content.length = tb.len := content_length hwf
  have hSpos : 0 < (computeLineStarts tb.content).length := by
    unfold computeLineStarts
    simp
  rw [new_at_zero]
  rw [iterForward_spec hwf e (newlineStarts tb.content 0) 0 _ (by omega) (by simp)
    (by unfold computeLineStarts; simp)]
  rw [linePairs_eq_pairsAux tb.content hend (newlineStarts tb.content 0) 0 (by omega)
    (by simp)]
  have hnewb : LineIterator.new tb tb.len e
      = { current_pos := (LineIterator.new tb tb.len e).current_pos,
          buffer_len := tb.len, estimated_line_length := e } := rfl
  rw [hnewb, new_at_len hwf he hend e]
  rw [iterBackward_spec hwf he e ((computeLineStarts tb.content).length - 1)
    (computeLineStarts tb.content).length (by omega) (by omega)]
  have hSlen : (computeLineStarts tb.content).length - 1
      = (newlineStarts tb.content 0).length := by
    unfold computeLineStarts
    simp
  rw [hSlen,
    List.take_of_length_le (le_of_eq (pairsAux_length tb.content _ 0))]

end Fresh

namespace Fresh

/-! Exact characterization of the terminal conditions of `next` and `prev`. -/

theorem next_none_iff (tb : TextBuffer) (it : LineIterator) :
    (LineIterator.next tb it).1 = none ↔ it.buffer_len ≤ it.current_pos := by
  unfold LineIterator.next
  by_cases h : it.buffer_len ≤ it.current_pos
  · rw [if_pos h]
    simp [h]
  · rw [if_neg h]
    simp [h]

theorem prev_none_iff_exact {tb : TextBuffer} {it : LineIterator} (hwf : tb.WF)
    (he : tb.exactMeta = true) (hcur : it.current_pos ≤ tb.len) :
    (LineIterator.prev tb it).1 = none
      ↔ lineStartAt tb.content it.current_pos = 0 := by
  have hlen : tb.content.length = tb.len := content_length hwf
  by_cases h0 : it.current_pos = 0
  · rw [prev_at_zero tb it h0, h0]
    simp [lineStartAt]
  · unfold LineIterator.prev
    rw [if_neg h0]
    unfold TextBuffer.offset_to_position
    rw [if_pos he]
    simp only []
    by_cases hl : (computeLineStarts tb.content).countP
        (fun s => decide (s ≤ it.current_pos)) - 1 = 0
    · rw [if_pos hl]
      have hL : lineStartAt tb.content it.current_pos = 0 := by
        rw [← @starts_lookup_eq_lineStartAt tb.content it.current_pos (by omega) 0, hl]
        unfold computeLineStarts
        rw [List.getD_cons_zero]
      simp [hL]
    · rw [if_neg hl]
      have hcle : (computeLineStarts tb.content).countP
          (fun s => decide (s ≤ it.current_pos))
          ≤ (computeLineStarts tb.content).length := List.countP_le_length _
      unfold TextBuffer.line_range
      rw [if_pos (by omega)]
      simp only []
      have hLpos : 0 < lineStartAt tb.content it.current_pos := by
        rw [← @starts_lookup_eq_lineStartAt tb.content it.current_pos (by omega) 0]
        have h00 : (computeLineStarts tb.content).getD 0 0 = 0 := by
          unfold computeLineStarts
          rw [List.getD_cons_zero]
        have hlt := sorted_getD_lt (computeLineStarts_pairwise tb.content)
          (show (0 : Nat) < (computeLineStarts tb.content).countP
            (fun s => decide (s ≤ it.current_pos)) - 1 from by omega) (by omega)
        omega
      constructor
      · intro h
        simp at h
      · intro h
        omega

theorem prev_none_iff_estimated {tb : TextBuffer} {it : LineIterator}
    (he : tb.exactMeta = false) (hcur : it.current_pos ≤ tb.len)
    (hell : 0 < it.estimated_line_length) :
    (LineIterator.prev tb it).1 = none
      ↔ it.current_pos < it.estimated_line_length := by
  by_cases h0 : it.current_pos = 0
  · rw [prev_at_zero tb it h0, h0]
    simp [hell]
  · unfold LineIterator.prev
    rw [if_neg h0]
    unfold TextBuffer.offset_to_position
    rw [if_neg (by simp [he])]
    simp only []
    by_cases hq : it.current_pos / it.estimated_line_length = 0
    · rw [if_pos hq]
      have hlt : it.current_pos < it.estimated_line_length := by
        by_contra hge
        push_neg at hge
        have := (Nat.one_le_div_iff hell).mpr hge
        omega
      simp [hlt]
    · rw [if_neg hq]
      have hge : it.estimated_line_length ≤ it.current_pos := by
        by_contra hlt2
        push_neg at hlt2
        exact hq (Nat.div_eq_of_lt hlt2)
      have hq1 : 1 ≤ it.current_pos / it.estimated_line_length :=
        (Nat.one_le_div_iff hell).mpr hge
      have hmul : (it.current_pos / it.estimated_line_length)
          * it.estimated_line_length ≤ it.current_pos := Nat.div_mul_le_self _ _
      have hsub : (it.current_pos / it.estimated_line_length - 1)
          * it.estimated_line_length
          = (it.current_pos / it.estimated_line_length) * it.estimated_line_length
            - it.estimated_line_length := Nat.sub_one_mul _ _
      have hge2 : it.estimated_line_length
          ≤ (it.current_pos / it.estimated_line_length) * it.estimated_line_length := by
        calc it.estimated_line_length
            = 1 * it.estimated_line_length := (one_mul _).symm
          _ ≤ _ := Nat.mul_le_mul_right _ hq1
      unfold TextBuffer.get_text_range
      rw [if_pos (by omega)]
      simp only []
      constructor
      · intro h
        simp at h
      · intro h
        omega

/-! Every line either routine produces is the lossy UTF-8 decoding of the
scanned bytes: all its code points are Unicode scalar values. -/

theorem lines_are_scalar (tb : TextBuffer) (it : LineIterator) :
    (∀ s line, (LineIterator.next tb it).1 = some (s, line) →
      ∀ c ∈ line, isScalarValue c = true) ∧
    (∀ s line, (LineIterator.prev tb it).1 = some (s, line) →
      ∀ c ∈ line, isScalarValue c = true) := by
  constructor
  · intro s line h
    unfold LineIterator.next at h
    by_cases hc : it.buffer_len ≤ it.current_pos
    · rw [if_pos hc] at h
      exact absurd h (by simp)
    · rw [if_neg hc] at h
      simp only [Option.some.injEq, Prod.mk.injEq] at h
      obtain ⟨h1, h2⟩ := h
      subst h2
      exact utf8LossyDecode_scalars _
  · intro s line h
    unfold LineIterator.prev at h
    by_cases h0 : it.current_pos = 0
    · rw [if_pos h0] at h
      exact absurd h (by simp)
    · rw [if_neg h0] at h
      cases hO : tb.offset_to_position it.current_pos with
      | none =>
          rw [hO] at h
          simp only [] at h
          by_cases hq : it.current_pos / it.estimated_line_length = 0
          · rw [if_pos hq] at h
            exact absurd h (by simp)
          · rw [if_neg hq] at h
            cases hG : tb.get_text_range
                ((it.current_pos / it.estimated_line_length - 1)
                  * it.estimated_line_length) it.estimated_line_length with
            | none =>
                rw [hG] at h
                exact absurd h (by simp)
            | some bytes =>
                rw [hG] at h
                simp only [Option.some.injEq, Prod.mk.injEq] at h
                obtain ⟨h1, h2⟩ := h
                subst h2
                exact utf8LossyDecode_scalars _
      | some pos =>
          rw [hO] at h
          simp only [] at h
          by_cases hl : pos.line = 0
          · rw [if_pos hl] at h
            exact absurd h (by simp)
          · rw [if_neg hl] at h
            cases hR : tb.line_range (pos.line - 1) with
            | none =>
                rw [hR] at h
                exact absurd h (by simp)
            | some r =>
                rw [hR] at h
                obtain ⟨ls, le2⟩ := r
                simp only [Option.some.injEq, Prod.mk.injEq] at h
                obtain ⟨h1, h2⟩ := h
                subst h2
                exact utf8LossyDecode_scalars _

end Fresh

namespace Fresh

/-! Claim theorems. -/

/-- C1: For every well-formed TextBuffer and every iterator state with
`current_pos < buffer length`, `next()` returns some pair of the cursor
position before the call and the lossily decoded document bytes from there up
to and including the first newline byte 0x0A (or to the document end when no
newline follows), and the cursor advances by exactly the number of bytes
scanned. -/
theorem c1_next_scans_line (tb : TextBuffer) (it : LineIterator) (hwf : tb.WF)
    (hlen : it.buffer_len = tb.len) (hcur : it.current_pos < tb.len) :
    LineIterator.next tb it
      = (some (it.current_pos,
          utf8LossyDecode (scanLine (tb.content.drop it.current_pos))),
        { it with current_pos :=
            it.current_pos + (scanLine (tb.content.drop it.current_pos)).length }) :=
  next_some hwf hlen hcur

/-- Witness for C1: `next` on the "Hello\nWorld!!\n" document from offset 0. -/
theorem c1_next_scans_line_witness :
    LineIterator.next helloBuf
        { current_pos := 0, buffer_len := 14, estimated_line_length := 80 }
      = (some (0, utf8LossyDecode (scanLine (helloBuf.content.drop 0))),
        { current_pos := 0 + (scanLine (helloBuf.content.drop 0)).length,
          buffer_len := 14, estimated_line_length := 80 }) :=
  c1_next_scans_line helloBuf
    { current_pos := 0, buffer_len := 14, estimated_line_length := 80 }
    (by decide) (by decide) (by decide)

/-- C2: For every supported encoding descriptor and every byte content valid
for it, decoding and re-encoding with no edits reproduces the bytes exactly,
byte-order-mark presence included. -/
theorem c2_encoding_roundtrip (d : EncodingKind) (bs : List Nat)
    (h : ValidBytesFor d bs) : encodeBytes d (decodeBytes d bs) = bs :=
  encode_decode_bytes d bs h

/-- Witness for C2: the UTF-16LE bytes of "H" with their BOM round-trip. -/
theorem c2_encoding_roundtrip_witness :
    encodeBytes EncodingKind.utf16le
        (decodeBytes EncodingKind.utf16le [0xFF, 0xFE, 0x48, 0x00])
      = [0xFF, 0xFE, 0x48, 0x00] :=
  c2_encoding_roundtrip EncodingKind.utf16le [0xFF, 0xFE, 0x48, 0x00]
    ⟨[0x48], by decide, by decide⟩

/-- C3: On the unedited document "Hello\nWorld!!\n" with exact line metadata,
an iterator built at byte offset 7 answers `prev()` with the pair
`(0, "Hello\n")` (code points 72 101 108 108 111 10), moving the cursor to 0. -/
theorem c3_hello_prev :
    LineIterator.prev helloBuf (LineIterator.new helloBuf 7 80)
      = (some (0, [72, 101, 108, 108, 111, 10]),
        { current_pos := 0, buffer_len := 14, estimated_line_length := 80 }) := by
  decide

/-- C4: On a buffer of more than 1 MiB without line metadata,
`LineIterator::new(buf, 1000, 80)` puts the cursor at the estimated line start
`(1000 / 80) * 80 = 960`. -/
theorem c4_estimated_new :
    (LineIterator.new bigBufD 1000 80).current_position = 960
      ∧ 1000 / 80 * 80 = 960 := by
  decide

/-- C5 (amended): `next()` returns none exactly when the cursor is at or past
the document end. `prev()`, however, returns none exactly when the current
line start is 0 in the exact regime, and exactly when the cursor is below
`estimated_line_length` in the estimated regime — which is weaker than
`current_pos = 0`. -/
theorem c5_terminal_conditions (tb : TextBuffer) (it : LineIterator)
    (hwf : tb.WF) (hcur : it.current_pos ≤ tb.len)
    (hell : 0 < it.estimated_line_length) :
    ((LineIterator.next tb it).1 = none ↔ it.buffer_len ≤ it.current_pos) ∧
    ((LineIterator.prev tb it).1 = none ↔
      (if tb.exactMeta then lineStartAt tb.content it.current_pos = 0
       else it.current_pos < it.estimated_line_length)) := by
  refine ⟨next_none_iff tb it, ?_⟩
  by_cases hm : tb.exactMeta
  · rw [if_pos hm]
    exact prev_none_iff_exact hwf hm hcur
  · rw [if_neg hm]
    exact prev_none_iff_estimated (by simpa using hm) hcur hell

/-- Witness for C5: the amended terminal conditions on "Hello\nWorld!!\n"
with the cursor at the second line start. -/
theorem c5_terminal_conditions_witness :
    ((LineIterator.next helloBuf
        { current_pos := 6, buffer_len := 14, estimated_line_length := 80 }).1 = none
      ↔ (14 : Nat) ≤ 6) ∧
    ((LineIterator.prev helloBuf
        { current_pos := 6, buffer_len := 14, estimated_line_length := 80 }).1 = none
      ↔ (if helloBuf.exactMeta then lineStartAt helloBuf.content 6 = 0
         else 6 < 80)) :=
  c5_terminal_conditions helloBuf
    { current_pos := 6, buffer_len := 14, estimated_line_length := 80 }
    (by decide) (by decide) (by decide)

/-- Counterexample to C5 as stated: on a metadata-free document "hi\n" padded
by an unloaded 1 MiB piece, one `next()` from a fresh iterator moves the
cursor to 3 — neither the document start nor its end — yet `prev()` returns
none there. -/
theorem c5_counterexample :
    (LineIterator.next hiBuf (LineIterator.new hiBuf 0 80)).2.current_pos = 3 ∧
    (LineIterator.prev hiBuf
      (LineIterator.next hiBuf (LineIterator.new hiBuf 0 80)).2).1 = none ∧
    (3 : Nat) ≠ 0 ∧ 3 < hiBuf.len := by
  decide

/-- C6: In the exact regime, for every byte offset within the document,
`new()` positions the cursor at the start of the line containing that offset. -/
theorem c6_new_exact_line_start (tb : TextBuffer) (hwf : tb.WF)
    (he : tb.exactMeta = true) (p : Nat) (hp : p ≤ tb.len) (e : Nat) :
    (LineIterator.new tb p e).current_position = lineStartAt tb.content p :=
  new_cur_eq_lineStartAt hwf he hp e

/-- Witness for C6: offset 7 of "Hello\nWorld!!\n" lies on the second line,
whose start the constructor finds. -/
theorem c6_new_exact_line_start_witness :
    (LineIterator.new helloBuf 7 80).current_position
      = lineStartAt helloBuf.content 7 :=
  c6_new_exact_line_start helloBuf (by decide) (by decide) 7 (by decide) 80

/-- C7 (amended): in the exact regime, forward iteration from offset 0 and
backward iteration from the document end produce the same (start, line) pairs
in reverse order — provided the document is empty or ends with a newline
byte. Without that proviso symmetry fails. -/
theorem c7_iteration_symmetry (tb : TextBuffer) (e : Nat) (hwf : tb.WF)
    (he : tb.exactMeta = true)
    (hend : tb.content = [] ∨ tb.content.getD (tb.content.length - 1) 0 = 10) :
    iterBackward tb (computeLineStarts tb.content).length
        (LineIterator.new tb tb.len e)
      = (iterForward tb (computeLineStarts tb.content).length
          (LineIterator.new tb 0 e)).reverse :=
  iter_forward_backward hwf he hend e

/-- Witness for C7: both runs over "Hello\nWorld!!\n" (which ends with a
newline) are mutual reverses. -/
theorem c7_iteration_symmetry_witness :
    iterBackward helloBuf (computeLineStarts helloBuf.content).length
        (LineIterator.new helloBuf helloBuf.len 80)
      = (iterForward helloBuf (computeLineStarts helloBuf.content).length
          (LineIterator.new helloBuf 0 80)).reverse :=
  c7_iteration_symmetry helloBuf 80 (by decide) (by decide) (by decide)

/-- Counterexample to C7 as stated: the well-formed single-byte document "b"
has exact line metadata, its forward run yields one line, but the backward
iterator built at the document end starts at line start 0 and immediately
answers none, so the runs are not mutual reverses. -/
theorem c7_counterexample :
    oneByteBuf.WF ∧ oneByteBuf.exactMeta = true ∧
    iterBackward oneByteBuf (computeLineStarts oneByteBuf.content).length
        (LineIterator.new oneByteBuf oneByteBuf.len 80)
      ≠ (iterForward oneByteBuf (computeLineStarts oneByteBuf.content).length
          (LineIterator.new oneByteBuf 0 80)).reverse := by
  decide

/-- C8 (amended): in the estimated regime with `estimated_line_length ≤
current_pos ≤ len`, `prev()` computes the estimated start
`(current_pos / estimated_line_length - 1) * estimated_line_length` — the
start of the line *before* the estimated current one, not
`(current_pos / estimated_line_length) * estimated_line_length` — moves the
cursor there and returns it with the next `estimated_line_length` bytes. -/
theorem c8_estimated_prev (tb : TextBuffer) (it : LineIterator)
    (he : tb.exactMeta = false) (hell : 0 < it.estimated_line_length)
    (hcur : it.estimated_line_length ≤ it.current_pos)
    (hle : it.current_pos ≤ tb.len) :
    LineIterator.prev tb it
      = (some ((it.current_pos / it.estimated_line_length - 1)
            * it.estimated_line_length,
          utf8LossyDecode
            ((tb.content.drop ((it.current_pos / it.estimated_line_length - 1)
                * it.estimated_line_length)).take it.estimated_line_length)),
        { it with current_pos :=
            (it.current_pos / it.estimated_line_length - 1)
              * it.estimated_line_length }) :=
  prev_estimated_step he hell hcur hle

/-- Witness for C8: `prev` from byte 160 of the metadata-free document. -/
theorem c8_estimated_prev_witness :
    LineIterator.prev estBuf
        { current_pos := 160, buffer_len := estBuf.len, estimated_line_length := 80 }
      = (some ((160 / 80 - 1) * 80,
          utf8LossyDecode ((estBuf.content.drop ((160 / 80 - 1) * 80)).take 80)),
        { current_pos := (160 / 80 - 1) * 80, buffer_len := estBuf.len,
          estimated_line_length := 80 }) :=
  c8_estimated_prev estBuf
    { current_pos := 160, buffer_len := estBuf.len, estimated_line_length := 80 }
    (by decide) (by decide) (by decide) (by decide)

/-- Counterexample to C8 as stated: from byte 160 with estimated line length
80, `prev()` moves the cursor to byte 80 and returns start 80, not the
claimed `(160 / 80) * 80 = 160`. -/
theorem c8_counterexample :
    estBuf.exactMeta = false ∧
    (LineIterator.prev estBuf
      { current_pos := 160, buffer_len := estBuf.len,
        estimated_line_length := 80 }).2.current_pos = 80 ∧
    ((LineIterator.prev estBuf
      { current_pos := 160, buffer_len := estBuf.len,
        estimated_line_length := 80 }).1.map Prod.fst) = some 80 ∧
    160 / 80 * 80 = 160 ∧ (80 : Nat) ≠ 160 := by
  decide

/-- C9: `LineIterator::new` is total for every positive line-length estimate:
for every TextBuffer and every starting offset, including offsets past the
buffer length, construction succeeds, the stored length is the buffer's, and
the resulting position never exceeds it. The `0 < e` hypothesis keeps the
statement within the source's domain: with a zero estimate the source's
`byte_pos / estimated_line_length` divides by zero on metadata-free buffers,
a panic Nat division does not reproduce. -/
theorem c9_new_never_fails (tb : TextBuffer) (p e : Nat) (_he : 0 < e) :
    (LineIterator.new tb p e).current_position ≤ tb.len ∧
      (LineIterator.new tb p e).buffer_len = tb.len :=
  ⟨new_cur_le tb p e, rfl⟩

/-- Witness for C9: construction at offset 1000 of the 14-byte document,
exercising the clamp past the buffer end. -/
theorem c9_new_never_fails_witness :
    (LineIterator.new helloBuf 1000 80).current_position ≤ helloBuf.len ∧
      (LineIterator.new helloBuf 1000 80).buffer_len = helloBuf.len :=
  c9_new_never_fails helloBuf 1000 80 (by decide)

/-- C10: `next()` and `prev()` are total over arbitrary document bytes: every
line either returns is the lossy UTF-8 decoding of the scanned bytes, so all
its code points are Unicode scalar values and undecodable bytes never make
them fail. -/
theorem c10_lines_lossy_total (tb : TextBuffer) (it : LineIterator) :
    (∀ s line, (LineIterator.next tb it).1 = some (s, line) →
      ∀ c ∈ line, isScalarValue c = true) ∧
    (∀ s line, (LineIterator.prev tb it).1 = some (s, line) →
      ∀ c ∈ line, isScalarValue c = true) :=
  lines_are_scalar tb it

/-- Witness for C10: on a document whose first byte 0xFF is invalid UTF-8,
`next` produces the replacement character U+FFFD and only scalar values. -/
theorem c10_lines_lossy_total_witness :
    (LineIterator.next badUtf8Buf
      { current_pos := 0, buffer_len := 3, estimated_line_length := 80 }).1
      = some (0, [0xFFFD, 65, 10]) ∧
    ∀ c ∈ [0xFFFD, 65, 10], isScalarValue c = true :=
  ⟨by decide,
    fun c hc =>
      (c10_lines_lossy_total badUtf8Buf
        { current_pos := 0, buffer_len := 3, estimated_line_length := 80 }).1
        0 [0xFFFD, 65, 10] (by decide) c hc⟩

end Fresh
